import Mathlib

/-!
go-osk: keymap validation, layout compilation and hit-testing

A shallow embedding of `osk/osk.go`.

Modelling conventions
* `float64` values are exact rationals (`ℚ`); `0.8` is `4/5`.
* Go `int` values are integers (`ℤ`); sums and differences of pixel
  quantities are exact.
* `int(x)` on a float truncates toward zero (`goInt`); `math.Round` rounds to
  nearest with halves away from zero (`mathRound`).
* The two scale factors are conversions `int(a / b)` of a quotient whose
  divisor comes from the description and may be zero or tiny.  Go's `int` has
  64 bits, and the conversion is implementation-dependent when the divisor is
  zero (the quotient is an infinity or a NaN) and when the integer part of
  the quotient does not fit an `int`.  The function `nonFinite` supplied to
  `New` stands for the conversion in those cases: it receives both operands,
  and its value is brought into the range of `int`, since whatever the
  conversion yields is an `int` (`intOfQuot`).
* `time.Time` values are integers counting nanoseconds; the clock read by
  `GetPressedKey` is an explicit argument `now`.
* A Go run-time panic (index out of range) is the result `none`.
* An `error` value is a constructor of `OskError`, one per message; `nil` is
  `Option.none`.
-/

namespace Osk

/-! ## Data model -/

/-- Constant `KTstandardChar`. -/
def KTstandardChar : ℤ := 0
/-- Constant `KTcarriageReturn`. -/
def KTcarriageReturn : ℤ := 1
/-- Constant `KTbackspace`. -/
def KTbackspace : ℤ := 2
/-- Constant `KTdelete`. -/
def KTdelete : ℤ := 3
/-- Constant `KTcapsLock`. -/
def KTcapsLock : ℤ := 4
/-- Constant `KTcontrol`. -/
def KTcontrol : ℤ := 5
/-- Constant `KTalt`. -/
def KTalt : ℤ := 6

/-- The anonymous struct `KeyMap.KBmargins`. -/
structure KBmargins where
  Top : ℚ
  Bottom : ℚ
  Left : ℚ
  Right : ℚ
  deriving DecidableEq

/-- An element of `KeyMap.Rows[i].Keys`. -/
structure KeyDesc where
  IsPadding : Bool
  KeyType : ℤ
  KeyWidth : ℚ
  Char : String
  deriving DecidableEq

/-- An element of `KeyMap.Rows`. -/
structure RowDesc where
  RowHeight : ℚ
  Keys : List KeyDesc
  deriving DecidableEq

/-- Go struct `KeyMap`. -/
structure KeyMap where
  Lang : String
  KBmargins : KBmargins
  TotalKeyWidth : ℚ
  TotalRowHeight : ℚ
  Rows : List RowDesc
  deriving DecidableEq

/-- Go struct `coords`. -/
structure coords where
  X : ℤ
  Y : ℤ
  deriving DecidableEq

/-- Go struct `Key`; `KeyCode` is a `rune` (an `int32`). -/
structure Key where
  coord : coords
  width : ℤ
  IsKey : Bool
  KeyType : ℤ
  KeyCode : ℤ
  deriving DecidableEq

/-- Go struct `Row`. -/
structure Row where
  rowHeight : ℤ
  keys : List Key
  deriving DecidableEq

/-- Go struct `VirtKeyboard`. -/
structure VirtKeyboard where
  widthPX : ℤ
  heightPX : ℤ
  kmUnitWidth : ℤ
  rhUnitWidth : ℤ
  StartCoords : coords
  rows : List Row
  debounceStartTm : ℤ
  prevKey : Key
  deriving DecidableEq

/-- The error values built by `errors.New` in `osk.go`, one constructor per
message; the two formatted messages carry the values they print. -/
inductive OskError where
  /-- "keymap: negative numbers not allowed" -/
  | negativeNumbers
  /-- "combined margins exceed 0.8" -/
  | marginsExceed
  /-- "Key widths sum exceeds %f in row %d" -/
  | keyWidthsExceed (total : ℚ) (row : ℕ)
  /-- "Row heights sum exceeds %f" -/
  | rowHeightsExceed (total : ℚ)
  /-- "Y out of bounds" (returned for both axes) -/
  | outOfBounds
  /-- "debounce detected" -/
  | debounce
  /-- "key not found" -/
  | keyNotFound
  deriving DecidableEq

/-- The zero value `Key{}`. -/
def zeroKey : Key := ⟨⟨0, 0⟩, 0, false, 0, 0⟩

/-- The zero value of `time.Time` (January 1, year 1, 00:00 UTC) in
nanoseconds relative to the Unix epoch. -/
def zeroTime : ℤ := -62135596800000000000

/-- The zero value `VirtKeyboard{}`. -/
def zeroKeyboard : VirtKeyboard := ⟨0, 0, 0, 0, ⟨0, 0⟩, [], zeroTime, zeroKey⟩

/-! ## validateKeymap -/

/-- The inner loop of `validateKeymap`: `currKeyMeas += k.KeyWidth` over the
keys of one row, starting from `currKeyMeas`. -/
def sumKeyWidths : List KeyDesc → ℚ → ℚ
  | [], currKeyMeas => currKeyMeas
  | k :: ks, currKeyMeas => sumKeyWidths ks (currKeyMeas + k.KeyWidth)

/-- The outer loop of `validateKeymap` from row index `i` on, with the running
sum of row heights `currRowMeas`; it stops with an error at the first row whose
key widths exceed `totalKeyWidth`, and otherwise yields the final sum. -/
def measureRows (totalKeyWidth : ℚ) : List RowDesc → ℕ → ℚ → Except OskError ℚ
  | [], _, currRowMeas => .ok currRowMeas
  | r :: rs, i, currRowMeas =>
    let currRowMeas := currRowMeas + r.RowHeight
    let currKeyMeas := sumKeyWidths r.Keys 0
    if currKeyMeas > totalKeyWidth then
      .error (.keyWidthsExceed totalKeyWidth i)
    else
      measureRows totalKeyWidth rs (i + 1) currRowMeas

/-- Function `validateKeymap`; `none` is the `nil` error. -/
def validateKeymap (km : KeyMap) : Option OskError :=
  if km.KBmargins.Bottom < 0 ∨ km.KBmargins.Top < 0 ∨
      km.KBmargins.Left < 0 ∨ km.KBmargins.Right < 0 then
    some .negativeNumbers
  else if km.KBmargins.Top + km.KBmargins.Bottom > 4 / 5 ∧
      km.KBmargins.Left + km.KBmargins.Right > 4 / 5 then
    some .marginsExceed
  else
    match measureRows km.TotalKeyWidth km.Rows 0 0 with
    | .error e => some e
    | .ok currRowMeas =>
      if currRowMeas > km.TotalRowHeight then
        some (.rowHeightsExceed km.TotalRowHeight)
      else
        none

/-! ## Numeric conversions -/

/-- Go's conversion `int(x)` of a float: the fractional part is discarded
(truncation toward zero). -/
def goInt (x : ℚ) : ℤ := if 0 ≤ x then ⌊x⌋ else ⌈x⌉

/-- Go's `math.Round`: the nearest integer, halves rounded away from zero; the
result is again a float. -/
def mathRound (x : ℚ) : ℚ := if 0 ≤ x then ((⌊x + 1 / 2⌋ : ℤ) : ℚ) else -((⌊-x + 1 / 2⌋ : ℤ) : ℚ)

/-- The largest value of Go's `int`. -/
def maxInt : ℤ := 2 ^ 63 - 1

/-- The smallest value of Go's `int`. -/
def minInt : ℤ := -2 ^ 63

/-- The expression `int(float64(a) / b)`.  When `b ≠ 0` and the integer part
of the quotient fits an `int`, it is the quotient truncated toward zero.
Otherwise (division by zero, or an integer part outside the range of `int`)
the converted value is implementation-dependent: it is the `int` that
`nonFinite` gives for the two operands. -/
def intOfQuot (nonFinite : ℤ → ℚ → ℤ) (a : ℤ) (b : ℚ) : ℤ :=
  if b ≠ 0 ∧ minInt ≤ goInt ((a : ℚ) / b) ∧ goInt ((a : ℚ) / b) ≤ maxInt then
    goInt ((a : ℚ) / b)
  else
    max minInt (min maxInt (nonFinite a b))

/-- Go's `len(s)` on a string: its length in bytes. -/
def len (s : String) : ℕ := s.utf8ByteSize

/-- Go's conversion `[]rune(s)`. -/
def runes (s : String) : List ℤ := s.data.map (fun c => (c.toNat : ℤ))

/-! ## New and convertKeymap -/

/-- One iteration of the inner loop of `convertKeymap`: the key compiled from
descriptor `k` at cursor `(currX, currY)`.  `none` is the panic of
`runeSlice[0]` on an empty slice. -/
def convertKey (v : VirtKeyboard) (currY currX : ℤ) (k : KeyDesc) : Option Key :=
  let width := goInt ((v.kmUnitWidth : ℚ) * k.KeyWidth)
  let keyType := k.KeyType
  let isKey := !k.IsPadding
  if keyType = 0 ∧ len k.Char > 0 then
    let runeSlice := runes k.Char
    match runeSlice[0]? with
    | none => none
    | some r => some ⟨⟨currX, currY⟩, width, isKey, keyType, r⟩
  else
    some ⟨⟨currX, currY⟩, width, isKey, keyType, 0⟩

/-- The inner loop of `convertKeymap` over the keys of one row, with the
running cursor `currX` (advanced by each key's own width). -/
def convertKeys (v : VirtKeyboard) (currY : ℤ) : List KeyDesc → ℤ → Option (List Key)
  | [], _ => some []
  | k :: ks, currX =>
    match convertKey v currY currX k with
    | none => none
    | some key =>
      match convertKeys v currY ks (currX + key.width) with
      | none => none
      | some rest => some (key :: rest)

/-- The outer loop of `convertKeymap` over the rows, with the running cursor
`currY` (advanced by each row's pixel height); the result is the list of rows
appended to `v.rows`. -/
def convertRows (v : VirtKeyboard) : List RowDesc → ℤ → Option (List Row)
  | [], _ => some []
  | r :: rs, currY =>
    let rowHeight := goInt ((v.rhUnitWidth : ℚ) * r.RowHeight)
    match convertKeys v currY r.Keys v.StartCoords.X with
    | none => none
    | some ky =>
      match convertRows v rs (currY + rowHeight) with
      | none => none
      | some rest => some (⟨rowHeight, ky⟩ :: rest)

/-- Method `convertKeymap`. -/
def convertKeymap (v : VirtKeyboard) (km : KeyMap) : Option VirtKeyboard :=
  match convertRows v km.Rows v.StartCoords.Y with
  | none => none
  | some rows => some { v with rows := v.rows ++ rows }

/-- Function `New`: the keyboard and the error it returns. -/
def New (nonFinite : ℤ → ℚ → ℤ) (km : KeyMap) (fbWidth fbHeight : ℤ) :
    Option (VirtKeyboard × Option OskError) :=
  let v := zeroKeyboard
  match validateKeymap km with
  | some err => some (v, some err)
  | none =>
    let floatFBw : ℚ := fbWidth
    let floatFBh : ℚ := fbHeight
    let pxFromTop := goInt (mathRound (floatFBh * km.KBmargins.Top))
    let pxFromBot := goInt (mathRound (floatFBh * km.KBmargins.Bottom))
    let pxFromLeft := goInt (mathRound (floatFBw * km.KBmargins.Left))
    let pxFromRight := goInt (mathRound (floatFBw * km.KBmargins.Right))
    let v := { v with StartCoords := ⟨pxFromLeft, pxFromTop⟩ }
    let v := { v with widthPX := fbWidth - pxFromLeft - pxFromRight }
    let v := { v with heightPX := fbHeight - pxFromTop - pxFromBot }
    let v := { v with kmUnitWidth := intOfQuot nonFinite v.widthPX km.TotalKeyWidth }
    let v := { v with rhUnitWidth := intOfQuot nonFinite v.heightPX km.TotalRowHeight }
    match convertKeymap v km with
    | none => none
    | some v => some (v, none)

/-- Method `GetLabel`; the receiver `v` is not used. -/
def GetLabel (_v : VirtKeyboard) (kt : ℤ) : String :=
  if kt = KTalt then "ALT"
  else if kt = KTbackspace then "BKSP"
  else if kt = KTcapsLock then "CPLK"
  else if kt = KTcarriageReturn then "RET"
  else if kt = KTcontrol then "CTRL"
  else if kt = KTdelete then "DEL"
  else ""

/-! ## GetPressedKey -/

/-- The constant `time.Millisecond`, in nanoseconds. -/
def millisecond : ℤ := 1000000

/-- The largest `time.Duration` (an `int64` count of nanoseconds). -/
def maxDuration : ℤ := 2 ^ 63 - 1

/-- The smallest `time.Duration`. -/
def minDuration : ℤ := -2 ^ 63

/-- Go's `time.Since(t)` with the clock reading `now`: the difference
`now - t`, saturated to the range of `time.Duration`. -/
def since (now t : ℤ) : ℤ := max minDuration (min maxDuration (now - t))

/-- The row loop of `GetPressedKey` from index `i` on with cursor `currY`: the
value of `rowIndex` after the loop (`-1` when no row is selected). -/
def rowScan (inY : ℤ) : List Row → ℕ → ℤ → ℤ
  | [], _, _ => -1
  | r :: rs, i, currY =>
    if inY ≤ currY + r.rowHeight then (i : ℤ)
    else rowScan inY rs (i + 1) (currY + r.rowHeight)

/-- The body of `if inX <= (k.coord.X + k.width)` in `GetPressedKey`: the
debounce decision for the key `k` the scan stopped at.  The result is the new
keyboard state, the returned key and the returned error. -/
def debounceStep (v : VirtKeyboard) (now : ℤ) (k : Key) : VirtKeyboard × Key × Option OskError :=
  if k ≠ v.prevKey then
    ({ v with prevKey := k, debounceStartTm := now }, k, none)
  else if since now v.debounceStartTm < 50 * millisecond then
    (v, zeroKey, some .debounce)
  else
    ({ v with prevKey := k, debounceStartTm := now }, k, none)

/-- The key loop `for i := 0; i < keyNum; i++` of `GetPressedKey`, entered at
index `i` with `remaining = keyNum - i` iterations left, together with the
return that follows the loop; `none` is an index-out-of-range panic. -/
def keyScan (v : VirtKeyboard) (now inX : ℤ) (keys : List Key) :
    ℕ → ℕ → Option (VirtKeyboard × Key × Option OskError)
  | 0, _ => some (v, zeroKey, some .keyNotFound)
  | remaining + 1, i =>
    match keys[i]? with
    | none => none
    | some k =>
      if inX ≤ k.coord.X + k.width then
        some (debounceStep v now k)
      else
        keyScan v now inX keys remaining (i + 1)

/-- Method `GetPressedKey`, with the clock reading `now`. -/
def GetPressedKey (v : VirtKeyboard) (now inX inY : ℤ) :
    Option (VirtKeyboard × Key × Option OskError) :=
  if inY < v.StartCoords.Y ∨ inY > v.StartCoords.Y + v.heightPX then
    some (v, zeroKey, some .outOfBounds)
  else if inX < v.StartCoords.X ∨ inX > v.StartCoords.X + v.widthPX then
    some (v, zeroKey, some .outOfBounds)
  else
    let rowIndex := rowScan inY v.rows 0 v.StartCoords.Y
    if rowIndex ≥ 0 then
      match v.rows[rowIndex.toNat]? with
      | none => none
      | some row => keyScan v now inX row.keys row.keys.length 0
    else
      some (v, zeroKey, some .keyNotFound)

/-! ## Quantities named by the specification, and concrete inputs -/

/-- Sum of the declared key widths of a description row. -/
def rowWidth (r : RowDesc) : ℚ := (r.Keys.map KeyDesc.KeyWidth).sum

/-- Sum of the declared row heights of a description. -/
def totalHeight (km : KeyMap) : ℚ := (km.Rows.map RowDesc.RowHeight).sum

/-- A description with a negative left margin. -/
def kmNegLeft : KeyMap :=
  ⟨"", ⟨0, 0, -1 / 10, 0⟩, 10, 1, [⟨1, [⟨false, 0, 12, "a"⟩]⟩]⟩

/-- A description whose row 0 sums to 12 against `totalKeyWidth` 10 and whose
row heights sum to 2 against `totalRowHeight` 1. -/
def kmWideRow : KeyMap :=
  ⟨"", ⟨0, 0, 0, 0⟩, 10, 1, [⟨2, [⟨false, 0, 5, "a"⟩, ⟨false, 0, 7, "b"⟩]⟩]⟩

/-- A description with `top + bottom > 0.8` and `left + right ≤ 0.8`. -/
def kmTallMargins : KeyMap :=
  ⟨"", ⟨1 / 2, 1 / 2, 0, 0⟩, 10, 1, [⟨1, [⟨false, 0, 10, "a"⟩]⟩]⟩


/-! ## Closed forms of the compiled layout

The functions below describe what `convertKeymap` and `New` produce when they
return; the theorems `convertKeymap_eq` and `New_of_valid` show that they
always return it. -/

/-- The value stored in `KeyCode` for descriptor `k`. -/
def keyCodeOf (k : KeyDesc) : ℤ :=
  if k.KeyType = 0 ∧ len k.Char > 0 then (runes k.Char).headD 0 else 0

/-- The key compiled from descriptor `k` at cursor `(currX, currY)`. -/
def compiledKey (v : VirtKeyboard) (currY currX : ℤ) (k : KeyDesc) : Key :=
  ⟨⟨currX, currY⟩, goInt ((v.kmUnitWidth : ℚ) * k.KeyWidth), !k.IsPadding, k.KeyType,
    keyCodeOf k⟩

/-- The keys compiled from the descriptors of one row, from cursor `currX`. -/
def compiledKeys (v : VirtKeyboard) (currY : ℤ) : List KeyDesc → ℤ → List Key
  | [], _ => []
  | k :: ks, currX =>
    compiledKey v currY currX k ::
      compiledKeys v currY ks (currX + (compiledKey v currY currX k).width)

/-- The rows compiled from the description rows, from cursor `currY`. -/
def compiledRows (v : VirtKeyboard) : List RowDesc → ℤ → List Row
  | [], _ => []
  | r :: rs, currY =>
    ⟨goInt ((v.rhUnitWidth : ℚ) * r.RowHeight), compiledKeys v currY r.Keys v.StartCoords.X⟩ ::
      compiledRows v rs (currY + goInt ((v.rhUnitWidth : ℚ) * r.RowHeight))

/-- Pixels of a margin fraction `f` of a canvas dimension `d`:
`int(math.Round(float64(d) * f))`. -/
def marginPx (d : ℤ) (f : ℚ) : ℤ := goInt (mathRound ((d : ℚ) * f))

/-- The keyboard `New` has before it calls `convertKeymap`. -/
def baseKeyboard (nonFinite : ℤ → ℚ → ℤ) (km : KeyMap) (fbWidth fbHeight : ℤ) : VirtKeyboard :=
  { widthPX := fbWidth - marginPx fbWidth km.KBmargins.Left - marginPx fbWidth km.KBmargins.Right
    heightPX :=
      fbHeight - marginPx fbHeight km.KBmargins.Top - marginPx fbHeight km.KBmargins.Bottom
    kmUnitWidth := intOfQuot nonFinite
      (fbWidth - marginPx fbWidth km.KBmargins.Left - marginPx fbWidth km.KBmargins.Right)
      km.TotalKeyWidth
    rhUnitWidth := intOfQuot nonFinite
      (fbHeight - marginPx fbHeight km.KBmargins.Top - marginPx fbHeight km.KBmargins.Bottom)
      km.TotalRowHeight
    StartCoords := ⟨marginPx fbWidth km.KBmargins.Left, marginPx fbHeight km.KBmargins.Top⟩
    rows := []
    debounceStartTm := zeroTime
    prevKey := zeroKey }

/-- The keyboard `New` returns for a description that passes validation. -/
def builtKeyboard (nonFinite : ℤ → ℚ → ℤ) (km : KeyMap) (fbWidth fbHeight : ℤ) : VirtKeyboard :=
  { baseKeyboard nonFinite km fbWidth fbHeight with
    rows := compiledRows (baseKeyboard nonFinite km fbWidth fbHeight) km.Rows
      (marginPx fbHeight km.KBmargins.Top) }

/-- A description with margins `top = 0.5`, `bottom = 0.3`, for a small
canvas. -/
def kmHalfMargins : KeyMap :=
  ⟨"", ⟨1 / 2, 3 / 10, 0, 0⟩, 10, 1, [⟨1, [⟨false, 0, 10, "a"⟩]⟩]⟩

/-- A two-row description with a padding key and a special key. -/
def kmSample : KeyMap :=
  ⟨"en", ⟨1 / 10, 1 / 10, 0, 0⟩, 10, 4,
    [⟨2, [⟨false, 0, 4, "ab"⟩, ⟨true, 0, 2, ""⟩, ⟨false, 2, 4, "x"⟩]⟩,
      ⟨2, [⟨false, 0, 10, "z"⟩]⟩]⟩

/-- The keys of a row tile it from `x0` rightward: the first key starts at
`x0` and every key starts where the key before it ends. -/
def Tiles (x0 : ℤ) (keys : List Key) : Prop :=
  (∀ k, keys[0]? = some k → k.coord.X = x0) ∧
  ∀ i k k', keys[i]? = some k → keys[i + 1]? = some k' → k.coord.X + k.width = k'.coord.X

/-- Top edge of the `i`-th of `rows` stacked downward from `y0`: `y0` plus the
pixel heights of the rows before it. -/
def rowTop (y0 : ℤ) (rows : List Row) (i : ℕ) : ℤ :=
  y0 + ((rows.take i).map Row.rowHeight).sum

/-- The compiled key `k` carries the flag, type and key code that descriptor
`kd` declares: `IsKey` is the negation of `isPadding`, `KeyType` is the
declared type, and `KeyCode` is the first codepoint of `char` for a
standard-character key with a non-empty `char` and 0 otherwise. -/
def KeyMatches (k : Key) (kd : KeyDesc) : Prop :=
  k.IsKey = (!kd.IsPadding) ∧ k.KeyType = kd.KeyType ∧
  (kd.KeyType = 0 → ∀ c cs, kd.Char.data = c :: cs → k.KeyCode = (c.toNat : ℤ)) ∧
  (kd.KeyType ≠ 0 ∨ kd.Char.data = [] → k.KeyCode = 0)

/-- The compiled `rows` correspond one to one, in order, to the description
rows `descs`, each with one key per descriptor in order, and every key of row
`i` has its `Y` at the top edge of row `i` in the stack starting at `y0`. -/
def Stacked (y0 : ℤ) (descs : List RowDesc) (rows : List Row) : Prop :=
  rows.length = descs.length ∧
  ∀ i r d, rows[i]? = some r → descs[i]? = some d →
    List.Forall₂ KeyMatches r.keys d.Keys ∧
    ∀ k ∈ r.keys, k.coord.Y = rowTop y0 rows i

/-- A description accepted with `top + bottom = 1.2`, whose drawable height is
negative on any canvas. -/
def kmNegativeHeight : KeyMap :=
  ⟨"", ⟨3 / 5, 3 / 5, 0, 0⟩, 10, 3, [⟨1, [⟨false, 0, 10, "a"⟩]⟩]⟩

/-- A description accepted with a negative row height. -/
def kmNegativeRow : KeyMap :=
  ⟨"", ⟨0, 0, 0, 0⟩, 10, 1, [⟨-1, [⟨false, 0, 10, "a"⟩]⟩, ⟨2, [⟨false, 0, 10, "b"⟩]⟩]⟩

/-- The pointer is inside the keyboard's outer bounds, both ends included. -/
def InBounds (v : VirtKeyboard) (inX inY : ℤ) : Prop :=
  v.StartCoords.Y ≤ inY ∧ inY ≤ v.StartCoords.Y + v.heightPX ∧
  v.StartCoords.X ≤ inX ∧ inX ≤ v.StartCoords.X + v.widthPX

/-- The row/key scan of `GetPressedKey` resolves the pointer to key `K`: the
pointer is in bounds, row `i` is the first row whose bottom edge
(`StartCoords.Y` plus the pixel heights of rows `0..i`) is at or below `inY`,
and `K` is the first key of that row whose right edge is at or right of
`inX`. -/
def Resolves (v : VirtKeyboard) (inX inY : ℤ) (K : Key) : Prop :=
  InBounds v inX inY ∧
  ∃ i row j, v.rows[i]? = some row ∧
    inY ≤ rowTop v.StartCoords.Y v.rows (i + 1) ∧
    (∀ i' : ℕ, i' < i → rowTop v.StartCoords.Y v.rows (i' + 1) < inY) ∧
    row.keys[j]? = some K ∧
    inX ≤ K.coord.X + K.width ∧
    ∀ (j' : ℕ) (k' : Key), j' < j → row.keys[j']? = some k' → k'.coord.X + k'.width < inX

/-- The padding key of `kmSample` compiled for a 100 by 200 canvas. -/
def padKey : Key := ⟨⟨40, 20⟩, 20, false, 0, 0⟩

/-- The keyboard `New` builds from `kmSample` for a 100 by 200 canvas. -/
def kbSample : VirtKeyboard :=
  { widthPX := 100
    heightPX := 160
    kmUnitWidth := 10
    rhUnitWidth := 40
    StartCoords := ⟨0, 20⟩
    rows := [⟨80, [⟨⟨0, 20⟩, 40, true, 0, 97⟩, padKey, ⟨⟨60, 20⟩, 40, true, 2, 0⟩]⟩,
      ⟨80, [⟨⟨0, 100⟩, 100, true, 0, 122⟩]⟩]
    debounceStartTm := zeroTime
    prevKey := zeroKey }

/-- The sample keyboard after a press of the padding key accepted at time 0. -/
def kbPressed : VirtKeyboard := { kbSample with prevKey := padKey, debounceStartTm := 0 }

/-- The keyboards `v` and `w` have the same layout: they differ at most in the
debounce state (`prevKey`, `debounceStartTm`). -/
def SameLayout (v w : VirtKeyboard) : Prop :=
  v.widthPX = w.widthPX ∧ v.heightPX = w.heightPX ∧ v.kmUnitWidth = w.kmUnitWidth ∧
  v.rhUnitWidth = w.rhUnitWidth ∧ v.StartCoords = w.StartCoords ∧ v.rows = w.rows

/-- A caller that passes a sequence of pointer events `(now, inX, inY)` to
`GetPressedKey` one after the other, each call on the state the previous call
left: the final state and the `(Key, error)` pair every call returned. -/
def pressAll (v : VirtKeyboard) :
    List (ℤ × ℤ × ℤ) → Option (VirtKeyboard × List (Key × Option OskError))
  | [] => some (v, [])
  | c :: cs =>
    match GetPressedKey v c.1 c.2.1 c.2.2 with
    | none => none
    | some res =>
      match pressAll res.1 cs with
      | none => none
      | some out => some (out.1, (res.2.1, res.2.2) :: out.2)

/-- A description with a single key that fills the canvas. -/
def kmSingle : KeyMap :=
  ⟨"", ⟨0, 0, 0, 0⟩, 1, 1, [⟨1, [⟨false, 0, 1, "a"⟩]⟩]⟩

/-- The key of `kmSingle` compiled for a 100 by 100 canvas. -/
def singleKey : Key := ⟨⟨0, 0⟩, 100, true, 0, 97⟩

/-- The keyboard `New` builds from `kmSingle` for a 100 by 100 canvas. -/
def kbSingle : VirtKeyboard :=
  { widthPX := 100
    heightPX := 100
    kmUnitWidth := 100
    rhUnitWidth := 100
    StartCoords := ⟨0, 0⟩
    rows := [⟨100, [singleKey]⟩]
    debounceStartTm := zeroTime
    prevKey := zeroKey }

/-- The integer `m` is `x` rounded to the nearest integer with halves rounded
away from zero: `m` is within `1/2` of `x`, and when it is exactly `1/2` away
it is the one of the two candidates with the larger absolute value. -/
def IsRoundHalfAway (x : ℚ) (m : ℤ) : Prop :=
  |(m : ℚ) - x| ≤ 1 / 2 ∧ (|(m : ℚ) - x| = 1 / 2 → |x| < |(m : ℚ)|)

/-- The integer `m` is `x` with its fractional part discarded (rounded toward
zero): the floor of a non-negative `x`, the ceiling of a negative one. -/
def IsTruncation (x : ℚ) (m : ℤ) : Prop :=
  (0 ≤ x → (m : ℚ) ≤ x ∧ x < (m : ℚ) + 1) ∧ (x < 0 → (m : ℚ) - 1 < x ∧ x ≤ (m : ℚ))

/-- A description whose row height and key width are half a unit. -/
def kmHalfUnits : KeyMap :=
  ⟨"", ⟨0, 0, 0, 0⟩, 1, 1, [⟨1 / 2, [⟨false, 0, 1 / 2, "a"⟩]⟩]⟩

/-- A description whose `TotalRowHeight` and single row height are `1e-17`, so
that `heightPX / TotalRowHeight` exceeds the largest `int` on a canvas of
height 100. -/
def kmTinyTotal : KeyMap :=
  ⟨"", ⟨0, 0, 0, 0⟩, 10, 1 / 10 ^ 17, [⟨1 / 10 ^ 17, [⟨false, 0, 10, "a"⟩]⟩]⟩

/-! # Theorems -/

/-! ## validateKeymap -/

theorem sumKeyWidths_eq (ks : List KeyDesc) (a : ℚ) :
    sumKeyWidths ks a = a + (ks.map KeyDesc.KeyWidth).sum := by
  induction ks generalizing a with
  | nil => simp [sumKeyWidths]
  | cons k ks ih => simp [sumKeyWidths, ih, add_assoc]

theorem sumKeyWidths_zero (r : RowDesc) : sumKeyWidths r.Keys 0 = rowWidth r := by
  simp [sumKeyWidths_eq, rowWidth]

theorem measureRows_ok (T : ℚ) (rows : List RowDesc) (i : ℕ) (acc : ℚ)
    (h : ∀ r ∈ rows, rowWidth r ≤ T) :
    measureRows T rows i acc = .ok (acc + (rows.map RowDesc.RowHeight).sum) := by
  induction rows generalizing i acc with
  | nil => simp [measureRows]
  | cons r rs ih =>
    have hr : ¬ T < rowWidth r := not_lt.mpr (h r (List.mem_cons_self _ _))
    have hrs : ∀ r' ∈ rs, rowWidth r' ≤ T := fun r' hr' => h r' (List.mem_cons_of_mem _ hr')
    simp [measureRows, sumKeyWidths_zero, hr, ih _ _ hrs, add_assoc]

theorem measureRows_error (T : ℚ) (rows : List RowDesc) (i : ℕ) (acc : ℚ) (n : ℕ) (r : RowDesc)
    (hn : rows[n]? = some r) (hr : T < rowWidth r)
    (hlt : ∀ j r', j < n → rows[j]? = some r' → rowWidth r' ≤ T) :
    measureRows T rows i acc = .error (.keyWidthsExceed T (i + n)) := by
  induction rows generalizing i acc n with
  | nil => simp at hn
  | cons r0 rs ih =>
    cases n with
    | zero =>
      simp at hn
      subst hn
      simp [measureRows, sumKeyWidths_zero, hr]
    | succ m =>
      have h0 : ¬ T < rowWidth r0 := not_lt.mpr (hlt 0 r0 (Nat.succ_pos _) (by simp))
      have hm : rs[m]? = some r := by simpa using hn
      have hlt' : ∀ j r', j < m → rs[j]? = some r' → rowWidth r' ≤ T := by
        intro j r' hj hjr
        exact hlt (j + 1) r' (by omega) (by simpa using hjr)
      simp [measureRows, sumKeyWidths_zero, h0, ih (i + 1) _ m hm hlt']
      omega

theorem measureRows_ok_imp (T : ℚ) (rows : List RowDesc) (i : ℕ) (acc s : ℚ)
    (h : measureRows T rows i acc = .ok s) : ∀ r ∈ rows, rowWidth r ≤ T := by
  induction rows generalizing i acc with
  | nil => simp
  | cons r rs ih =>
    simp only [measureRows, sumKeyWidths_zero] at h
    split at h
    · cases h
    · rename_i hr
      intro r' hr'
      rcases List.mem_cons.mp hr' with rfl | hmem
      · exact not_lt.mp hr
      · exact ih _ _ h r' hmem

theorem validateKeymap_eq_none_iff (km : KeyMap) :
    validateKeymap km = none ↔
      (0 ≤ km.KBmargins.Top ∧ 0 ≤ km.KBmargins.Bottom ∧
        0 ≤ km.KBmargins.Left ∧ 0 ≤ km.KBmargins.Right) ∧
      ¬ (km.KBmargins.Top + km.KBmargins.Bottom > 4 / 5 ∧
          km.KBmargins.Left + km.KBmargins.Right > 4 / 5) ∧
      (∀ r ∈ km.Rows, rowWidth r ≤ km.TotalKeyWidth) ∧
      totalHeight km ≤ km.TotalRowHeight := by
  unfold validateKeymap
  split
  · rename_i hneg
    constructor
    · intro h; cases h
    · rintro ⟨⟨h1, h2, h3, h4⟩, -⟩
      rcases hneg with h | h | h | h <;> linarith
  · rename_i hneg
    have hnn : 0 ≤ km.KBmargins.Top ∧ 0 ≤ km.KBmargins.Bottom ∧
        0 ≤ km.KBmargins.Left ∧ 0 ≤ km.KBmargins.Right := by
      simp only [not_or, not_lt] at hneg
      exact ⟨hneg.2.1, hneg.1, hneg.2.2.1, hneg.2.2.2⟩
    split
    · rename_i hboth
      constructor
      · intro h; cases h
      · rintro ⟨-, h, -⟩; exact absurd hboth h
    · rename_i hboth
      split
      · rename_i e he
        constructor
        · intro h; cases h
        · rintro ⟨-, -, hw, -⟩
          rw [measureRows_ok _ _ _ _ hw] at he
          cases he
      · rename_i s hs
        have hw := measureRows_ok_imp _ _ _ _ _ hs
        rw [measureRows_ok _ _ _ _ hw] at hs
        injection hs with hs
        simp only [zero_add] at hs
        subst hs
        split
        · rename_i hgt
          constructor
          · intro h; cases h
          · rintro ⟨-, -, -, hh⟩
            exact absurd hgt (not_lt.mpr hh)
        · rename_i hgt
          constructor
          · intro _
            exact ⟨hnn, hboth, hw, not_lt.mp hgt⟩
          · intro _; rfl
/-- C1: `validateKeymap` returns `nil` exactly when every margin is
non-negative, the two margin pairs do not both exceed 0.8, every row's key
widths sum to at most `TotalKeyWidth`, and the row heights sum to at most
`TotalRowHeight`. -/
theorem validateKeymap_accepts_iff (km : KeyMap) :
    validateKeymap km = none ↔
      (0 ≤ km.KBmargins.Top ∧ 0 ≤ km.KBmargins.Bottom ∧
        0 ≤ km.KBmargins.Left ∧ 0 ≤ km.KBmargins.Right) ∧
      ¬ (km.KBmargins.Top + km.KBmargins.Bottom > 4 / 5 ∧
          km.KBmargins.Left + km.KBmargins.Right > 4 / 5) ∧
      (∀ r ∈ km.Rows, rowWidth r ≤ km.TotalKeyWidth) ∧
      totalHeight km ≤ km.TotalRowHeight :=
  validateKeymap_eq_none_iff km

/-- C1, the particular case: a description with `top + bottom = 1 > 0.8` and
`left + right = 0 ≤ 0.8` that meets the other conditions is accepted. -/
theorem validateKeymap_accepts_tall_margins :
    kmTallMargins.KBmargins.Top + kmTallMargins.KBmargins.Bottom > 4 / 5 ∧
      validateKeymap kmTallMargins = none := by
  refine ⟨by norm_num [kmTallMargins], (validateKeymap_accepts_iff kmTallMargins).mpr ?_⟩
  norm_num [kmTallMargins, rowWidth, totalHeight]

theorem validateKeymap_of_negative (km : KeyMap)
    (h : km.KBmargins.Bottom < 0 ∨ km.KBmargins.Top < 0 ∨
      km.KBmargins.Left < 0 ∨ km.KBmargins.Right < 0) :
    validateKeymap km = some .negativeNumbers := by
  simp only [validateKeymap, if_pos h]

theorem validateKeymap_of_margins (km : KeyMap)
    (hneg : ¬ (km.KBmargins.Bottom < 0 ∨ km.KBmargins.Top < 0 ∨
      km.KBmargins.Left < 0 ∨ km.KBmargins.Right < 0))
    (h : km.KBmargins.Top + km.KBmargins.Bottom > 4 / 5 ∧
      km.KBmargins.Left + km.KBmargins.Right > 4 / 5) :
    validateKeymap km = some .marginsExceed := by
  simp only [validateKeymap, if_neg hneg, if_pos h]

theorem validateKeymap_of_measure (km : KeyMap)
    (hneg : ¬ (km.KBmargins.Bottom < 0 ∨ km.KBmargins.Top < 0 ∨
      km.KBmargins.Left < 0 ∨ km.KBmargins.Right < 0))
    (h : ¬ (km.KBmargins.Top + km.KBmargins.Bottom > 4 / 5 ∧
      km.KBmargins.Left + km.KBmargins.Right > 4 / 5)) :
    validateKeymap km =
      match measureRows km.TotalKeyWidth km.Rows 0 0 with
      | .error e => some e
      | .ok currRowMeas =>
        if currRowMeas > km.TotalRowHeight then
          some (.rowHeightsExceed km.TotalRowHeight)
        else none := by
  simp only [validateKeymap, if_neg hneg, if_neg h]

/-- C2: `validateKeymap` reports failures in the order of its four checks: a
negative margin gives the negative-margin error whatever else is wrong;
otherwise two excessive margin pairs give the excessive-margins error;
otherwise the first row (smallest index) whose key widths exceed
`TotalKeyWidth` gives the row-width error naming that index, whatever the row
heights sum to; the total-height error is returned only when no row is too
wide, and then exactly when the heights sum to more than `TotalRowHeight`. -/
theorem validateKeymap_error_order (km : KeyMap) :
    ((km.KBmargins.Bottom < 0 ∨ km.KBmargins.Top < 0 ∨
        km.KBmargins.Left < 0 ∨ km.KBmargins.Right < 0) →
      validateKeymap km = some .negativeNumbers) ∧
    (¬ (km.KBmargins.Bottom < 0 ∨ km.KBmargins.Top < 0 ∨
        km.KBmargins.Left < 0 ∨ km.KBmargins.Right < 0) →
      ((km.KBmargins.Top + km.KBmargins.Bottom > 4 / 5 ∧
          km.KBmargins.Left + km.KBmargins.Right > 4 / 5) →
        validateKeymap km = some .marginsExceed) ∧
      (¬ (km.KBmargins.Top + km.KBmargins.Bottom > 4 / 5 ∧
          km.KBmargins.Left + km.KBmargins.Right > 4 / 5) →
        (∀ (i : ℕ) (r : RowDesc), km.Rows[i]? = some r → km.TotalKeyWidth < rowWidth r →
          (∀ (j : ℕ) (r' : RowDesc), j < i → km.Rows[j]? = some r' →
            rowWidth r' ≤ km.TotalKeyWidth) →
          validateKeymap km = some (.keyWidthsExceed km.TotalKeyWidth i)) ∧
        ((∀ r ∈ km.Rows, rowWidth r ≤ km.TotalKeyWidth) →
          km.TotalRowHeight < totalHeight km →
          validateKeymap km = some (.rowHeightsExceed km.TotalRowHeight)))) ∧
    (∀ t : ℚ, validateKeymap km = some (.rowHeightsExceed t) →
      ∀ r ∈ km.Rows, rowWidth r ≤ km.TotalKeyWidth) := by
  refine ⟨validateKeymap_of_negative km, fun hneg => ⟨validateKeymap_of_margins km hneg,
    fun hboth => ⟨?_, ?_⟩⟩, ?_⟩
  · intro i r hi hr hlt
    rw [validateKeymap_of_measure km hneg hboth,
      measureRows_error _ _ 0 0 i r hi hr hlt]
    simp
  · intro hw hh
    rw [validateKeymap_of_measure km hneg hboth, measureRows_ok _ _ _ _ hw]
    simp only [zero_add]
    exact if_pos hh
  · intro t ht
    by_cases hneg : km.KBmargins.Bottom < 0 ∨ km.KBmargins.Top < 0 ∨
        km.KBmargins.Left < 0 ∨ km.KBmargins.Right < 0
    · rw [validateKeymap_of_negative km hneg] at ht; cases ht
    · by_cases hboth : km.KBmargins.Top + km.KBmargins.Bottom > 4 / 5 ∧
          km.KBmargins.Left + km.KBmargins.Right > 4 / 5
      · rw [validateKeymap_of_margins km hneg hboth] at ht; cases ht
      · rw [validateKeymap_of_measure km hneg hboth] at ht
        split at ht
        · rename_i e he
          by_contra hw
          push_neg at hw
          obtain ⟨r, hr, hrw⟩ := hw
          have hfind : ∃ i r, km.Rows[i]? = some r ∧ km.TotalKeyWidth < rowWidth r ∧
              ∀ (j : ℕ) (r' : RowDesc), j < i → km.Rows[j]? = some r' →
                rowWidth r' ≤ km.TotalKeyWidth := by
            by_contra hnone
            push_neg at hnone
            have hall : ∀ (n i : ℕ) (r : RowDesc), i < n → km.Rows[i]? = some r →
                rowWidth r ≤ km.TotalKeyWidth := by
              intro n
              induction n with
              | zero => intro i r hi; omega
              | succ n ih =>
                intro i r hi hir
                by_contra hgt
                obtain ⟨j, r', hj, hjr, hjw⟩ := hnone i r hir (not_le.mp hgt)
                exact absurd (ih j r' (by omega) hjr) (not_le.mpr hjw)
            obtain ⟨i, hi, hir⟩ := List.getElem_of_mem hr
            have := hall (i + 1) i r (by omega) (by rw [List.getElem?_eq_getElem hi, hir])
            exact absurd this (not_le.mpr hrw)
          obtain ⟨i, r0, hi, hr0, hlt⟩ := hfind
          rw [measureRows_error _ _ 0 0 i r0 hi hr0 hlt] at he
          injection he with he
          subst he
          cases ht
        · rename_i s hs
          exact measureRows_ok_imp _ _ _ _ _ hs

/-- C2, the two inputs of the specification: a left margin of `-0.1` gives
the negative-margin error although row 0 is also too wide, and a row 0 summing
to 12 against `TotalKeyWidth` 10 gives the row-width error naming row 0
although the row heights are also too large. -/
theorem validateKeymap_error_order_witness :
    validateKeymap kmNegLeft = some .negativeNumbers ∧
      validateKeymap kmWideRow = some (.keyWidthsExceed 10 0) ∧
      kmWideRow.TotalRowHeight < totalHeight kmWideRow := by
  refine ⟨(validateKeymap_error_order kmNegLeft).1 (by norm_num [kmNegLeft]),
    ((validateKeymap_error_order kmWideRow).2.1 (by norm_num [kmWideRow])).2
      (by norm_num [kmWideRow]) |>.1 0 _ rfl (by norm_num [kmWideRow, rowWidth])
      (by intro j r' hj; omega),
    by norm_num [kmWideRow, totalHeight]⟩
/-! ## convertKeymap and New return -/

theorem runes_head_of_len_pos (s : String) (h : len s > 0) :
    (runes s)[0]? = some ((runes s).headD 0) := by
  obtain ⟨cs⟩ := s
  cases cs with
  | nil => simp [len, String.utf8ByteSize, String.utf8ByteSize.go] at h
  | cons c cs => simp [runes]

theorem convertKey_eq (v : VirtKeyboard) (currY currX : ℤ) (k : KeyDesc) :
    convertKey v currY currX k = some (compiledKey v currY currX k) := by
  unfold convertKey compiledKey keyCodeOf
  by_cases h : k.KeyType = 0 ∧ len k.Char > 0
  · simp only [if_pos h, runes_head_of_len_pos k.Char h.2]
  · simp only [if_neg h]

theorem convertKeys_eq (v : VirtKeyboard) (currY : ℤ) (ks : List KeyDesc) (currX : ℤ) :
    convertKeys v currY ks currX = some (compiledKeys v currY ks currX) := by
  induction ks generalizing currX with
  | nil => rfl
  | cons k ks ih => simp only [convertKeys, convertKey_eq, ih, compiledKeys]

theorem convertRows_eq (v : VirtKeyboard) (rs : List RowDesc) (currY : ℤ) :
    convertRows v rs currY = some (compiledRows v rs currY) := by
  induction rs generalizing currY with
  | nil => rfl
  | cons r rs ih => simp only [convertRows, convertKeys_eq, ih, compiledRows]

theorem convertKeymap_eq (v : VirtKeyboard) (km : KeyMap) :
    convertKeymap v km =
      some { v with rows := v.rows ++ compiledRows v km.Rows v.StartCoords.Y } := by
  simp only [convertKeymap, convertRows_eq]

theorem New_of_valid (nonFinite : ℤ → ℚ → ℤ) (km : KeyMap) (fbWidth fbHeight : ℤ)
    (h : validateKeymap km = none) :
    New nonFinite km fbWidth fbHeight =
      some (builtKeyboard nonFinite km fbWidth fbHeight, none) := by
  simp only [New, h, convertKeymap_eq, zeroKeyboard, builtKeyboard, baseKeyboard, marginPx,
    List.nil_append]

theorem New_of_invalid (nonFinite : ℤ → ℚ → ℤ) (km : KeyMap) (fbWidth fbHeight : ℤ) (e : OskError)
    (h : validateKeymap km = some e) :
    New nonFinite km fbWidth fbHeight = some (zeroKeyboard, some e) := by
  simp only [New, h]
/-! ## Margins and the drawable area -/

theorem goInt_intCast (n : ℤ) : goInt (n : ℚ) = n := by
  unfold goInt
  split <;> simp

theorem marginPx_of_nonneg (d : ℤ) (f : ℚ) (h : 0 ≤ (d : ℚ) * f) :
    marginPx d f = ⌊(d : ℚ) * f + 1 / 2⌋ := by
  simp only [marginPx, mathRound, if_pos h, goInt_intCast]

theorem marginPx_le (d : ℤ) (f : ℚ) (h : 0 ≤ (d : ℚ) * f) :
    (marginPx d f : ℚ) ≤ (d : ℚ) * f + 1 / 2 := by
  rw [marginPx_of_nonneg d f h]
  exact Int.floor_le _

theorem drawable_pos (d : ℤ) (f g : ℚ) (hd : 5 < d) (hf : 0 ≤ f) (hg : 0 ≤ g)
    (hfg : f + g ≤ 4 / 5) : 0 < d - marginPx d f - marginPx d g := by
  have hd' : (5 : ℚ) < (d : ℚ) := by exact_mod_cast hd
  have hd0 : (0 : ℚ) ≤ (d : ℚ) := by linarith
  have h1 := marginPx_le d f (mul_nonneg hd0 hf)
  have h2 := marginPx_le d g (mul_nonneg hd0 hg)
  have h3 : (d : ℚ) * (f + g) ≤ (d : ℚ) * (4 / 5) := mul_le_mul_of_nonneg_left hfg hd0
  have h4 : (0 : ℚ) < ((d - marginPx d f - marginPx d g : ℤ) : ℚ) := by
    push_cast
    nlinarith
  exact_mod_cast h4

/-- C3 (amended): for an accepted description, the axis whose margin pair is at
most 0.8 has a positive drawable size on a canvas of more than 5 pixels along
that axis; the margin check ensures this for at least one of the two axes. -/
theorem New_drawable_area (nonFinite : ℤ → ℚ → ℤ) (km : KeyMap) (fbWidth fbHeight : ℤ)
    (hv : validateKeymap km = none) :
    ∃ kb, New nonFinite km fbWidth fbHeight = some (kb, none) ∧
      (km.KBmargins.Left + km.KBmargins.Right ≤ 4 / 5 → 5 < fbWidth → 0 < kb.widthPX) ∧
      (km.KBmargins.Top + km.KBmargins.Bottom ≤ 4 / 5 → 5 < fbHeight → 0 < kb.heightPX) ∧
      (5 < fbWidth → 5 < fbHeight → 0 < kb.widthPX ∨ 0 < kb.heightPX) := by
  obtain ⟨⟨ht, hb, hl, hr⟩, hboth, -, -⟩ := (validateKeymap_eq_none_iff km).mp hv
  have hW : km.KBmargins.Left + km.KBmargins.Right ≤ 4 / 5 → 5 < fbWidth →
      0 < (builtKeyboard nonFinite km fbWidth fbHeight).widthPX :=
    fun hle hw => drawable_pos fbWidth _ _ hw hl hr hle
  have hH : km.KBmargins.Top + km.KBmargins.Bottom ≤ 4 / 5 → 5 < fbHeight →
      0 < (builtKeyboard nonFinite km fbWidth fbHeight).heightPX :=
    fun hle hh => drawable_pos fbHeight _ _ hh ht hb hle
  refine ⟨_, New_of_valid nonFinite km fbWidth fbHeight hv, hW, hH, ?_⟩
  intro hw hh
  by_cases hle : km.KBmargins.Left + km.KBmargins.Right ≤ 4 / 5
  · exact Or.inl (hW hle hw)
  · refine Or.inr (hH ?_ hh)
    by_contra htb
    exact hboth ⟨not_le.mp htb, not_le.mp hle⟩

theorem validateKeymap_kmSample : validateKeymap kmSample = none := by
  rw [validateKeymap_eq_none_iff]
  norm_num [kmSample, rowWidth, totalHeight]

theorem validateKeymap_kmTallMargins : validateKeymap kmTallMargins = none := by
  rw [validateKeymap_eq_none_iff]
  norm_num [kmTallMargins, rowWidth, totalHeight]

theorem validateKeymap_kmHalfMargins : validateKeymap kmHalfMargins = none := by
  rw [validateKeymap_eq_none_iff]
  norm_num [kmHalfMargins, rowWidth, totalHeight]

/-- C3 (amended), at the sample description on a 100 by 200 canvas. -/
theorem New_drawable_area_witness :
    ∃ kb, New (fun _ _ => 0) kmSample 100 200 = some (kb, none) ∧
      (kmSample.KBmargins.Left + kmSample.KBmargins.Right ≤ 4 / 5 → (5 : ℤ) < 100 →
        0 < kb.widthPX) ∧
      (kmSample.KBmargins.Top + kmSample.KBmargins.Bottom ≤ 4 / 5 → (5 : ℤ) < 200 →
        0 < kb.heightPX) ∧
      ((5 : ℤ) < 100 → (5 : ℤ) < 200 → 0 < kb.widthPX ∨ 0 < kb.heightPX) :=
  New_drawable_area (fun _ _ => 0) kmSample 100 200 validateKeymap_kmSample

/-- C3, counterexample: the description with `top = bottom = 0.5` and no
horizontal margin is accepted, and on a 100 by 100 canvas `New` builds a
keyboard whose drawable height is 0. -/
theorem New_drawable_area_counterexample :
    validateKeymap kmTallMargins = none ∧
      ∃ kb, New (fun _ _ => 0) kmTallMargins 100 100 = some (kb, none) ∧
        kb.widthPX = 100 ∧ kb.heightPX = 0 := by
  refine ⟨validateKeymap_kmTallMargins, _,
    New_of_valid _ _ _ _ validateKeymap_kmTallMargins, ?_, ?_⟩
  · norm_num [builtKeyboard, baseKeyboard, marginPx, mathRound, goInt, kmTallMargins]
  · norm_num [builtKeyboard, baseKeyboard, marginPx, mathRound, goInt, kmTallMargins]

/-- C3, the canvas bound is needed: with `top + bottom = 0.8` and a canvas
height of 5 the two rounded margins take the whole height. -/
theorem New_drawable_area_small_canvas :
    validateKeymap kmHalfMargins = none ∧
      ∃ kb, New (fun _ _ => 0) kmHalfMargins 5 5 = some (kb, none) ∧ kb.heightPX = 0 := by
  refine ⟨validateKeymap_kmHalfMargins, _,
    New_of_valid _ _ _ _ validateKeymap_kmHalfMargins, ?_⟩
  norm_num [builtKeyboard, baseKeyboard, marginPx, mathRound, goInt, kmHalfMargins]
/-! ## Layout of the compiled keys -/

theorem compiledKeys_tiles (v : VirtKeyboard) (currY : ℤ) (ks : List KeyDesc) (currX : ℤ) :
    Tiles currX (compiledKeys v currY ks currX) := by
  induction ks generalizing currX with
  | nil => exact ⟨by simp [compiledKeys], by simp [compiledKeys]⟩
  | cons kd ks ih =>
    refine ⟨?_, ?_⟩
    · intro k hk
      simp only [compiledKeys, List.getElem?_cons_zero, Option.some.injEq] at hk
      subst hk
      rfl
    · intro i k k' hk hk'
      cases i with
      | zero =>
        simp only [compiledKeys, List.getElem?_cons_zero, Option.some.injEq] at hk
        simp only [compiledKeys, zero_add, List.getElem?_cons_succ] at hk'
        subst hk
        exact ((ih _).1 k' hk').symm
      | succ i =>
        simp only [compiledKeys, List.getElem?_cons_succ] at hk hk'
        exact (ih _).2 i k k' hk hk'

theorem compiledRows_tiles (v : VirtKeyboard) (rs : List RowDesc) (currY : ℤ) :
    ∀ r ∈ compiledRows v rs currY, Tiles v.StartCoords.X r.keys := by
  induction rs generalizing currY with
  | nil => simp [compiledRows]
  | cons d rs ih =>
    intro r hr
    simp only [compiledRows, List.mem_cons] at hr
    rcases hr with rfl | hr
    · exact compiledKeys_tiles _ _ _ _
    · exact ih _ r hr

theorem compiledKeys_length (v : VirtKeyboard) (currY : ℤ) (ks : List KeyDesc) (currX : ℤ) :
    (compiledKeys v currY ks currX).length = ks.length := by
  induction ks generalizing currX with
  | nil => rfl
  | cons kd ks ih => simp only [compiledKeys, List.length_cons, ih]

theorem compiledRows_length (v : VirtKeyboard) (rs : List RowDesc) (currY : ℤ) :
    (compiledRows v rs currY).length = rs.length := by
  induction rs generalizing currY with
  | nil => rfl
  | cons d rs ih => simp only [compiledRows, List.length_cons, ih]

/-- C4: in every row compiled by `convertKeymap` (the rows it appends to
`v.rows`), and so in every row of the keyboard built by `New`, the keys tile
the row from the origin X: the first key's X is `StartCoords.X` and each
key's X plus its width is the next key's X. -/
theorem convertKeymap_keys_tile (nonFinite : ℤ → ℚ → ℤ) (v : VirtKeyboard) (km : KeyMap)
    (fbWidth fbHeight : ℤ) :
    (∃ kb, convertKeymap v km = some kb ∧ kb.StartCoords = v.StartCoords ∧
      ∃ rows, kb.rows = v.rows ++ rows ∧ rows.length = km.Rows.length ∧
        ∀ r ∈ rows, Tiles kb.StartCoords.X r.keys) ∧
    (∃ kb err, New nonFinite km fbWidth fbHeight = some (kb, err) ∧
      (validateKeymap km = none → err = none ∧ kb.rows.length = km.Rows.length) ∧
      ∀ r ∈ kb.rows, Tiles kb.StartCoords.X r.keys) := by
  refine ⟨⟨_, convertKeymap_eq v km, rfl, _, rfl, compiledRows_length _ _ _,
    compiledRows_tiles v km.Rows _⟩, ?_⟩
  cases hv : validateKeymap km with
  | some e =>
    refine ⟨_, _, New_of_invalid nonFinite km fbWidth fbHeight e hv, ?_, ?_⟩
    · intro h; cases h
    · intro r hr
      simp [zeroKeyboard] at hr
  | none =>
    refine ⟨_, _, New_of_valid nonFinite km fbWidth fbHeight hv, fun _ => ⟨rfl, ?_⟩, ?_⟩
    · exact compiledRows_length _ _ _
    · exact compiledRows_tiles (baseKeyboard nonFinite km fbWidth fbHeight) km.Rows _

theorem keyCodeOf_matches (kd : KeyDesc) :
    (kd.KeyType = 0 → ∀ c cs, kd.Char.data = c :: cs → keyCodeOf kd = (c.toNat : ℤ)) ∧
    (kd.KeyType ≠ 0 ∨ kd.Char.data = [] → keyCodeOf kd = 0) := by
  obtain ⟨p, t, w, ⟨cs⟩⟩ := kd
  refine ⟨?_, ?_⟩
  · intro ht c cs' hcs
    simp only at ht hcs
    subst hcs
    have hlen : len ⟨c :: cs'⟩ > 0 := by
      simp only [len, String.utf8ByteSize, String.utf8ByteSize.go]
      have := Char.utf8Size_pos c
      omega
    simp only [keyCodeOf, ht, hlen, and_self, if_true, runes, List.map_cons, List.headD_cons]
  · rintro (ht | hcs)
    · simp only [keyCodeOf]
      rw [if_neg]
      exact fun h => ht h.1
    · simp only at hcs
      subst hcs
      simp [keyCodeOf, len, String.utf8ByteSize, String.utf8ByteSize.go]

theorem compiledKey_matches (v : VirtKeyboard) (currY currX : ℤ) (kd : KeyDesc) :
    KeyMatches (compiledKey v currY currX kd) kd :=
  ⟨rfl, rfl, (keyCodeOf_matches kd).1, (keyCodeOf_matches kd).2⟩

theorem compiledKeys_matches (v : VirtKeyboard) (currY : ℤ) (ks : List KeyDesc) (currX : ℤ) :
    List.Forall₂ KeyMatches (compiledKeys v currY ks currX) ks := by
  induction ks generalizing currX with
  | nil => exact List.Forall₂.nil
  | cons kd ks ih => exact List.Forall₂.cons (compiledKey_matches _ _ _ _) (ih _)

theorem compiledKeys_Y (v : VirtKeyboard) (currY : ℤ) (ks : List KeyDesc) (currX : ℤ) :
    ∀ k ∈ compiledKeys v currY ks currX, k.coord.Y = currY := by
  induction ks generalizing currX with
  | nil => simp [compiledKeys]
  | cons kd ks ih =>
    intro k hk
    simp only [compiledKeys, List.mem_cons] at hk
    rcases hk with rfl | hk
    · rfl
    · exact ih _ k hk

theorem compiledRows_stacked (v : VirtKeyboard) (rs : List RowDesc) (currY : ℤ) :
    Stacked currY rs (compiledRows v rs currY) := by
  refine ⟨compiledRows_length _ _ _, ?_⟩
  induction rs generalizing currY with
  | nil => intro i r d hr; simp [compiledRows] at hr
  | cons d0 rs ih =>
    intro i r d hr hd
    cases i with
    | zero =>
      simp only [compiledRows, List.getElem?_cons_zero, Option.some.injEq] at hr hd
      subst hr hd
      refine ⟨compiledKeys_matches _ _ _ _, ?_⟩
      intro k hk
      simp only [rowTop, List.take_zero, List.map_nil, List.sum_nil, add_zero]
      exact compiledKeys_Y _ _ _ _ k hk
    | succ i =>
      simp only [compiledRows, List.getElem?_cons_succ] at hr hd
      obtain ⟨h1, h2⟩ := ih _ i r d hr hd
      refine ⟨h1, ?_⟩
      intro k hk
      rw [h2 k hk]
      simp only [rowTop, compiledRows, List.take_succ_cons, List.map_cons, List.sum_cons]
      ring

/-- C5: `convertKeymap` appends exactly one compiled row per description row,
in the same order, each with one key per key descriptor in order, and every
key of compiled row `i` has `Y` equal to `StartCoords.Y` plus the pixel
heights of the compiled rows before it; the keyboard `New` builds from an
accepted description consists of exactly these rows. -/
theorem convertKeymap_rows_stack (nonFinite : ℤ → ℚ → ℤ) (v : VirtKeyboard) (km : KeyMap)
    (fbWidth fbHeight : ℤ) :
    (∃ kb, convertKeymap v km = some kb ∧ kb.StartCoords = v.StartCoords ∧
      ∃ rows, kb.rows = v.rows ++ rows ∧ Stacked kb.StartCoords.Y km.Rows rows) ∧
    (validateKeymap km = none →
      ∃ kb, New nonFinite km fbWidth fbHeight = some (kb, none) ∧
        Stacked kb.StartCoords.Y km.Rows kb.rows) :=
  ⟨⟨_, convertKeymap_eq v km, rfl, _, rfl, compiledRows_stacked v km.Rows _⟩,
    fun hv => ⟨_, New_of_valid nonFinite km fbWidth fbHeight hv,
      compiledRows_stacked (baseKeyboard nonFinite km fbWidth fbHeight) km.Rows _⟩⟩

/-- C7: every key compiled by `convertKeymap` has `IsKey` equal to the
negation of the descriptor's `isPadding`, `KeyType` equal to the declared
type, and `KeyCode` equal to the first codepoint of `char` when the type is 0
and `char` is non-empty (whatever follows the first codepoint), and 0
otherwise; the conversion never fails. -/
theorem convertKeymap_key_fields (v : VirtKeyboard) (km : KeyMap) :
    ∃ kb, convertKeymap v km = some kb ∧
      ∃ rows, kb.rows = v.rows ++ rows ∧
        List.Forall₂ (fun r d => List.Forall₂ KeyMatches r.keys d.Keys) rows km.Rows := by
  refine ⟨_, convertKeymap_eq v km, _, rfl, ?_⟩
  generalize v.StartCoords.Y = y
  induction km.Rows generalizing y with
  | nil => exact List.Forall₂.nil
  | cons d rs ih => exact List.Forall₂.cons (compiledKeys_matches _ _ _ _) (ih _)
/-! ## Row heights and the drawable height -/

theorem compiledRows_heights (v : VirtKeyboard) (rs : List RowDesc) (currY : ℤ) :
    (compiledRows v rs currY).map Row.rowHeight =
      rs.map (fun d => goInt ((v.rhUnitWidth : ℚ) * d.RowHeight)) := by
  induction rs generalizing currY with
  | nil => rfl
  | cons d rs ih => simp only [compiledRows, List.map_cons, ih]

theorem goInt_of_nonneg (x : ℚ) (h : 0 ≤ x) : 0 ≤ goInt x ∧ (goInt x : ℚ) ≤ x := by
  simp only [goInt, if_pos h]
  exact ⟨Int.floor_nonneg.mpr h, Int.floor_le x⟩

theorem sum_goInt_le (u : ℚ) (rs : List RowDesc)
    (h : ∀ d ∈ rs, 0 ≤ u * d.RowHeight) :
    (((rs.map (fun d => goInt (u * d.RowHeight))).sum : ℤ) : ℚ) ≤
      u * (rs.map RowDesc.RowHeight).sum := by
  induction rs with
  | nil => simp
  | cons d rs ih =>
    have h1 := (goInt_of_nonneg _ (h d (List.mem_cons_self _ _))).2
    have h2 := ih (fun d' hd' => h d' (List.mem_cons_of_mem _ hd'))
    simp only [List.map_cons, List.sum_cons, Int.cast_add, mul_add]
    linarith

theorem intOfQuot_of_fits (nonFinite : ℤ → ℚ → ℤ) (a : ℤ) (b : ℚ) (hb : b ≠ 0)
    (h1 : minInt ≤ goInt ((a : ℚ) / b)) (h2 : goInt ((a : ℚ) / b) ≤ maxInt) :
    intOfQuot nonFinite a b = goInt ((a : ℚ) / b) := by
  unfold intOfQuot
  rw [if_pos ⟨hb, h1, h2⟩]

theorem intOfQuot_range (nonFinite : ℤ → ℚ → ℤ) (a : ℤ) (b : ℚ) :
    minInt ≤ intOfQuot nonFinite a b ∧ intOfQuot nonFinite a b ≤ maxInt := by
  unfold intOfQuot
  split
  · rename_i h
    exact ⟨h.2.1, h.2.2⟩
  · exact ⟨le_max_left _ _, max_le (by decide) (min_le_left _ _)⟩

theorem intOfQuot_nonneg_of_fits (nonFinite : ℤ → ℚ → ℤ) (a : ℤ) (b : ℚ) (ha : 0 ≤ a)
    (hb : 0 < b) (hfit : goInt ((a : ℚ) / b) ≤ maxInt) : 0 ≤ intOfQuot nonFinite a b := by
  have haq : (0 : ℚ) ≤ (a : ℚ) := by exact_mod_cast ha
  have hg := (goInt_of_nonneg _ (div_nonneg haq hb.le)).1
  rw [intOfQuot_of_fits nonFinite a b hb.ne' (le_trans (by decide) hg) hfit]
  exact hg

theorem intOfQuot_le_quot (nonFinite : ℤ → ℚ → ℤ) (a : ℤ) (b : ℚ) (ha : 0 ≤ a) (hb : 0 < b) :
    ((intOfQuot nonFinite a b : ℤ) : ℚ) ≤ (a : ℚ) / b := by
  have haq : (0 : ℚ) ≤ (a : ℚ) := by exact_mod_cast ha
  obtain ⟨hg0, hg1⟩ := goInt_of_nonneg _ (div_nonneg haq hb.le)
  by_cases hfit : goInt ((a : ℚ) / b) ≤ maxInt
  · rw [intOfQuot_of_fits nonFinite a b hb.ne' (le_trans (by decide) hg0) hfit]
    exact hg1
  · have h1 := (intOfQuot_range nonFinite a b).2
    have h2 : intOfQuot nonFinite a b ≤ goInt ((a : ℚ) / b) := by omega
    have h3 : ((intOfQuot nonFinite a b : ℤ) : ℚ) ≤ ((goInt ((a : ℚ) / b) : ℤ) : ℚ) := by
      exact_mod_cast h2
    exact le_trans h3 hg1

theorem intOfQuot_mul_sum_le (nonFinite : ℤ → ℚ → ℤ) (H : ℤ) (T : ℚ) (xs : List ℚ)
    (hH : 0 ≤ H) (hnn : ∀ x ∈ xs, 0 ≤ x) (hS : xs.sum ≤ T)
    (hu : 0 ≤ intOfQuot nonFinite H T ∨ T = 0) :
    (∀ x ∈ xs, 0 ≤ ((intOfQuot nonFinite H T : ℤ) : ℚ) * x) ∧
      ((intOfQuot nonFinite H T : ℤ) : ℚ) * xs.sum ≤ (H : ℚ) := by
  have hS0 : 0 ≤ xs.sum := List.sum_nonneg hnn
  have hHq : (0 : ℚ) ≤ (H : ℚ) := by exact_mod_cast hH
  by_cases hT : T = 0
  · subst hT
    have hsum : xs.sum = 0 := le_antisymm hS hS0
    have hall : ∀ x ∈ xs, x = 0 := by
      intro x hx
      have h1 := List.single_le_sum hnn x hx
      have h2 := hnn x hx
      linarith
    refine ⟨fun x hx => by rw [hall x hx, mul_zero], ?_⟩
    rw [hsum, mul_zero]
    exact hHq
  · have hu0 : 0 ≤ intOfQuot nonFinite H T := by
      rcases hu with h | h
      · exact h
      · exact absurd h hT
    have hu0' : (0 : ℚ) ≤ ((intOfQuot nonFinite H T : ℤ) : ℚ) := by exact_mod_cast hu0
    have hTpos : 0 < T := lt_of_le_of_ne (le_trans hS0 hS) (Ne.symm hT)
    have hu1 := intOfQuot_le_quot nonFinite H T hH hTpos
    refine ⟨fun x hx => mul_nonneg hu0' (hnn x hx), ?_⟩
    calc ((intOfQuot nonFinite H T : ℤ) : ℚ) * xs.sum
        ≤ ((intOfQuot nonFinite H T : ℤ) : ℚ) * T := mul_le_mul_of_nonneg_left hS hu0'
      _ ≤ (H : ℚ) / T * T := mul_le_mul_of_nonneg_right hu1 hTpos.le
      _ = (H : ℚ) := div_mul_cancel₀ _ hT

theorem rhUnit_mul_nonneg (nonFinite : ℤ → ℚ → ℤ) (H : ℤ) (T : ℚ) (rs : List RowDesc)
    (hH : 0 ≤ H) (hnn : ∀ d ∈ rs, 0 ≤ d.RowHeight) (hS : (rs.map RowDesc.RowHeight).sum ≤ T)
    (hu : 0 ≤ intOfQuot nonFinite H T ∨ T = 0) :
    (∀ d ∈ rs, 0 ≤ ((intOfQuot nonFinite H T : ℤ) : ℚ) * d.RowHeight) ∧
      ((intOfQuot nonFinite H T : ℤ) : ℚ) * (rs.map RowDesc.RowHeight).sum ≤ (H : ℚ) := by
  have hxs : ∀ x ∈ rs.map RowDesc.RowHeight, 0 ≤ x := by
    intro x hx
    obtain ⟨d, hd, rfl⟩ := List.mem_map.mp hx
    exact hnn d hd
  obtain ⟨h1, h2⟩ := intOfQuot_mul_sum_le nonFinite H T _ hH hxs hS hu
  exact ⟨fun d hd => h1 _ (List.mem_map_of_mem _ hd), h2⟩

theorem rowTop_bounds (y0 : ℤ) (rows : List Row) (hnn : ∀ r ∈ rows, 0 ≤ r.rowHeight)
    (i : ℕ) (r : Row) (hr : rows[i]? = some r) :
    y0 ≤ rowTop y0 rows i ∧ rowTop y0 rows i ≤ rowTop y0 rows i + r.rowHeight ∧
      rowTop y0 rows i + r.rowHeight ≤ y0 + (rows.map Row.rowHeight).sum := by
  have hi : i < rows.length := by
    by_contra hcon
    rw [List.getElem?_eq_none (not_lt.mp hcon)] at hr
    cases hr
  have hri : rows[i] = r := by
    rw [List.getElem?_eq_getElem hi] at hr
    exact Option.some.inj hr
  have hsplit : (rows.map Row.rowHeight).sum =
      ((rows.take i).map Row.rowHeight).sum + r.rowHeight +
        ((rows.drop (i + 1)).map Row.rowHeight).sum := by
    conv_lhs => rw [← List.take_append_drop i rows]
    rw [List.drop_eq_getElem_cons hi, hri]
    simp only [List.map_append, List.map_cons, List.sum_append, List.sum_cons]
    ring
  have h1 : 0 ≤ ((rows.take i).map Row.rowHeight).sum := by
    apply List.sum_nonneg
    intro x hx
    obtain ⟨r', hr', rfl⟩ := List.mem_map.mp hx
    exact hnn r' (List.mem_of_mem_take hr')
  have h2 : 0 ≤ ((rows.drop (i + 1)).map Row.rowHeight).sum := by
    apply List.sum_nonneg
    intro x hx
    obtain ⟨r', hr', rfl⟩ := List.mem_map.mp hx
    exact hnn r' (List.mem_of_mem_drop hr')
  have h3 : 0 ≤ r.rowHeight := hnn r (hri ▸ List.getElem_mem _)
  simp only [rowTop]
  omega
theorem builtKeyboard_heights_nonneg (nonFinite : ℤ → ℚ → ℤ) (km : KeyMap) (fbWidth fbHeight : ℤ)
    (hv : validateKeymap km = none) (hnn : ∀ d ∈ km.Rows, 0 ≤ d.RowHeight)
    (hH : 0 ≤ (builtKeyboard nonFinite km fbWidth fbHeight).heightPX)
    (hunit : 0 ≤ (builtKeyboard nonFinite km fbWidth fbHeight).rhUnitWidth ∨
      km.TotalRowHeight = 0) :
    (∀ r ∈ (builtKeyboard nonFinite km fbWidth fbHeight).rows, 0 ≤ r.rowHeight) ∧
      ((builtKeyboard nonFinite km fbWidth fbHeight).rows.map Row.rowHeight).sum ≤
        (builtKeyboard nonFinite km fbWidth fbHeight).heightPX := by
  obtain ⟨-, -, -, hS⟩ := (validateKeymap_eq_none_iff km).mp hv
  obtain ⟨hu, hle⟩ := rhUnit_mul_nonneg nonFinite _ km.TotalRowHeight km.Rows hH hnn hS hunit
  have hmap := compiledRows_heights (baseKeyboard nonFinite km fbWidth fbHeight) km.Rows
    (marginPx fbHeight km.KBmargins.Top)
  refine ⟨?_, ?_⟩
  · intro r hr
    have hmem : r.rowHeight ∈ (compiledRows (baseKeyboard nonFinite km fbWidth fbHeight) km.Rows
        (marginPx fbHeight km.KBmargins.Top)).map Row.rowHeight := List.mem_map_of_mem _ hr
    rw [hmap] at hmem
    obtain ⟨d, hd, hdr⟩ := List.mem_map.mp hmem
    rw [← hdr]
    exact (goInt_of_nonneg _ (hu d hd)).1
  · have h1 := sum_goInt_le _ km.Rows hu
    have h2 : ((((builtKeyboard nonFinite km fbWidth fbHeight).rows.map Row.rowHeight).sum : ℤ) : ℚ)
        ≤ (((builtKeyboard nonFinite km fbWidth fbHeight).heightPX : ℤ) : ℚ) := by
      show ((((compiledRows (baseKeyboard nonFinite km fbWidth fbHeight) km.Rows
        (marginPx fbHeight km.KBmargins.Top)).map Row.rowHeight).sum : ℤ) : ℚ) ≤ _
      rw [hmap]
      exact le_trans h1 hle
    exact_mod_cast h2

theorem rhUnit_nonneg_of_fits (nonFinite : ℤ → ℚ → ℤ) (km : KeyMap) (fbWidth fbHeight : ℤ)
    (hv : validateKeymap km = none) (hnn : ∀ d ∈ km.Rows, 0 ≤ d.RowHeight)
    (hH : 0 ≤ (builtKeyboard nonFinite km fbWidth fbHeight).heightPX)
    (hfit : km.TotalRowHeight ≠ 0 →
      goInt (((builtKeyboard nonFinite km fbWidth fbHeight).heightPX : ℚ) / km.TotalRowHeight) ≤
        maxInt) :
    0 ≤ (builtKeyboard nonFinite km fbWidth fbHeight).rhUnitWidth ∨ km.TotalRowHeight = 0 := by
  by_cases hT : km.TotalRowHeight = 0
  · exact Or.inr hT
  · left
    obtain ⟨-, -, -, hS⟩ := (validateKeymap_eq_none_iff km).mp hv
    have hS0 : 0 ≤ totalHeight km := by
      apply List.sum_nonneg
      intro x hx
      obtain ⟨d, hd, rfl⟩ := List.mem_map.mp hx
      exact hnn d hd
    have hTpos : 0 < km.TotalRowHeight := lt_of_le_of_ne (le_trans hS0 hS) (Ne.symm hT)
    exact intOfQuot_nonneg_of_fits nonFinite _ _ hH hTpos (hfit hT)

/-- C6 (amended): for an accepted description whose row heights are all
non-negative, compiled by `New` for a canvas whose drawable height is
non-negative and for which the integer part of `heightPX / TotalRowHeight`
fits an `int` (so that the conversion giving the scale factor is defined),
the row pixel heights sum to at most `heightPX`, and every row's top and
bottom edge lies between `StartCoords.Y` and `StartCoords.Y + heightPX`. -/
theorem New_rows_within_height (nonFinite : ℤ → ℚ → ℤ) (km : KeyMap) (fbWidth fbHeight : ℤ)
    (hv : validateKeymap km = none) (hnn : ∀ d ∈ km.Rows, 0 ≤ d.RowHeight) :
    ∃ kb, New nonFinite km fbWidth fbHeight = some (kb, none) ∧
      (0 ≤ kb.heightPX →
        (km.TotalRowHeight ≠ 0 →
          goInt ((kb.heightPX : ℚ) / km.TotalRowHeight) ≤ maxInt) →
        (kb.rows.map Row.rowHeight).sum ≤ kb.heightPX ∧
        ∀ i r, kb.rows[i]? = some r →
          kb.StartCoords.Y ≤ rowTop kb.StartCoords.Y kb.rows i ∧
          rowTop kb.StartCoords.Y kb.rows i ≤ rowTop kb.StartCoords.Y kb.rows i + r.rowHeight ∧
          rowTop kb.StartCoords.Y kb.rows i + r.rowHeight ≤ kb.StartCoords.Y + kb.heightPX) := by
  refine ⟨_, New_of_valid nonFinite km fbWidth fbHeight hv, ?_⟩
  intro hH hfit
  have hunit := rhUnit_nonneg_of_fits nonFinite km fbWidth fbHeight hv hnn hH hfit
  obtain ⟨h0, hsum⟩ :=
    builtKeyboard_heights_nonneg nonFinite km fbWidth fbHeight hv hnn hH hunit
  refine ⟨hsum, ?_⟩
  intro i r hr
  obtain ⟨h1, h2, h3⟩ := rowTop_bounds (builtKeyboard nonFinite km fbWidth fbHeight).StartCoords.Y
    _ h0 i r hr
  exact ⟨h1, h2, by omega⟩

theorem keyCodeOf_first (p : Bool) (w : ℚ) (c : Char) (cs : List Char) :
    keyCodeOf ⟨p, 0, w, ⟨c :: cs⟩⟩ = (c.toNat : ℤ) :=
  (keyCodeOf_matches ⟨p, 0, w, ⟨c :: cs⟩⟩).1 rfl c cs rfl

theorem keyCodeOf_special (p : Bool) (t : ℤ) (w : ℚ) (s : String) (ht : t ≠ 0) :
    keyCodeOf ⟨p, t, w, s⟩ = 0 :=
  (keyCodeOf_matches ⟨p, t, w, s⟩).2 (Or.inl ht)

theorem keyCodeOf_empty (p : Bool) (t : ℤ) (w : ℚ) : keyCodeOf ⟨p, t, w, ""⟩ = 0 :=
  (keyCodeOf_matches ⟨p, t, w, ""⟩).2 (Or.inr rfl)

theorem New_kmSample : New (fun _ _ => 0) kmSample 100 200 = some (kbSample, none) := by
  rw [New_of_valid _ _ _ _ validateKeymap_kmSample]
  have h1 : keyCodeOf ⟨false, 0, 4, "ab"⟩ = 97 := keyCodeOf_first false 4 (Char.ofNat 97) [Char.ofNat 98]
  have h2 : keyCodeOf ⟨true, 0, 2, ""⟩ = 0 := keyCodeOf_empty true 0 2
  have h3 : keyCodeOf ⟨false, 2, 4, "x"⟩ = 0 := keyCodeOf_special false 2 4 "x" (by decide)
  have h4 : keyCodeOf ⟨false, 0, 10, "z"⟩ = 122 := keyCodeOf_first false 10 (Char.ofNat 122) []
  norm_num [builtKeyboard, baseKeyboard, marginPx, mathRound, goInt, intOfQuot, minInt, maxInt, kmSample,
    kbSample, padKey, compiledRows, compiledKeys, compiledKey, h1, h2, h3, h4]

/-- C6 (amended), at the sample description on a 100 by 200 canvas: the two
rows of 80 pixels fill the drawable height of 160. -/
theorem New_rows_within_height_witness :
    ∃ kb, New (fun _ _ => 0) kmSample 100 200 = some (kb, none) ∧
      (0 ≤ kb.heightPX →
        (kmSample.TotalRowHeight ≠ 0 →
          goInt ((kb.heightPX : ℚ) / kmSample.TotalRowHeight) ≤ maxInt) →
        (kb.rows.map Row.rowHeight).sum ≤ kb.heightPX ∧
        ∀ i r, kb.rows[i]? = some r →
          kb.StartCoords.Y ≤ rowTop kb.StartCoords.Y kb.rows i ∧
          rowTop kb.StartCoords.Y kb.rows i ≤ rowTop kb.StartCoords.Y kb.rows i + r.rowHeight ∧
          rowTop kb.StartCoords.Y kb.rows i + r.rowHeight ≤ kb.StartCoords.Y + kb.heightPX) :=
  New_rows_within_height (fun _ _ => 0) kmSample 100 200 validateKeymap_kmSample
    (by norm_num [kmSample])

theorem validateKeymap_kmNegativeHeight : validateKeymap kmNegativeHeight = none := by
  rw [validateKeymap_eq_none_iff]
  norm_num [kmNegativeHeight, rowWidth, totalHeight]

theorem validateKeymap_kmNegativeRow : validateKeymap kmNegativeRow = none := by
  rw [validateKeymap_eq_none_iff]
  norm_num [kmNegativeRow, rowWidth, totalHeight]

/-- C6, counterexample: the description with `top = bottom = 0.6`,
`TotalRowHeight = 3` and one row of height 1 is accepted; on a 100 by 100
canvas the drawable height is `-20` and the single row has pixel height `-6`,
so the row heights sum to more than `heightPX`. -/
theorem New_rows_within_height_counterexample :
    validateKeymap kmNegativeHeight = none ∧
      ∃ kb, New (fun _ _ => 0) kmNegativeHeight 100 100 = some (kb, none) ∧
        kb.heightPX = -20 ∧ kb.rows.map Row.rowHeight = [-6] ∧
        ¬ (kb.rows.map Row.rowHeight).sum ≤ kb.heightPX := by
  have hU : (baseKeyboard (fun _ _ => 0) kmNegativeHeight 100 100).rhUnitWidth = -6 := by
    have hc : ⌈(-(20 / 3) : ℚ)⌉ = -6 := by
      rw [Int.ceil_eq_iff]
      norm_num
    norm_num [baseKeyboard, marginPx, mathRound, goInt, intOfQuot, minInt, maxInt,
      kmNegativeHeight, hc]
  have hR : (builtKeyboard (fun _ _ => 0) kmNegativeHeight 100 100).rows.map Row.rowHeight =
      [-6] := by
    show (compiledRows _ _ _).map Row.rowHeight = [-6]
    rw [compiledRows_heights, hU]
    norm_num [kmNegativeHeight, goInt]
    rw [Int.ceil_eq_iff]
    norm_num
  have hH : (builtKeyboard (fun _ _ => 0) kmNegativeHeight 100 100).heightPX = -20 := by
    norm_num [builtKeyboard, baseKeyboard, marginPx, mathRound, goInt, kmNegativeHeight]
  refine ⟨validateKeymap_kmNegativeHeight, _,
    New_of_valid _ _ _ _ validateKeymap_kmNegativeHeight, hH, hR, ?_⟩
  rw [hR, hH]
  decide

/-- C6, the sign of the row heights is needed: with row heights `-1` and `2`
against `TotalRowHeight = 1` on a 100 by 100 canvas, row 0 has pixel height
`-100`, so its bottom edge lies above `StartCoords.Y`. -/
theorem New_rows_within_height_negative_row :
    validateKeymap kmNegativeRow = none ∧
      ∃ kb, New (fun _ _ => 0) kmNegativeRow 100 100 = some (kb, none) ∧
        kb.heightPX = 100 ∧ kb.StartCoords.Y = 0 ∧ kb.rows.map Row.rowHeight = [-100, 200] := by
  have hU : (baseKeyboard (fun _ _ => 0) kmNegativeRow 100 100).rhUnitWidth = 100 := by
    norm_num [baseKeyboard, marginPx, mathRound, goInt, intOfQuot, minInt, maxInt, kmNegativeRow]
  have hR : (builtKeyboard (fun _ _ => 0) kmNegativeRow 100 100).rows.map Row.rowHeight =
      [-100, 200] := by
    show (compiledRows _ _ _).map Row.rowHeight = [-100, 200]
    rw [compiledRows_heights, hU]
    norm_num [kmNegativeRow, goInt]
    rw [Int.ceil_eq_iff]
    norm_num
  refine ⟨validateKeymap_kmNegativeRow, _,
    New_of_valid _ _ _ _ validateKeymap_kmNegativeRow, ?_, ?_, hR⟩
  · norm_num [builtKeyboard, baseKeyboard, marginPx, mathRound, goInt, kmNegativeRow]
  · norm_num [builtKeyboard, baseKeyboard, marginPx, mathRound, goInt, kmNegativeRow]
theorem validateKeymap_kmTinyTotal : validateKeymap kmTinyTotal = none := by
  rw [validateKeymap_eq_none_iff]
  norm_num [kmTinyTotal, rowWidth, totalHeight]

/-- C6, the range of the scale factor is needed: with `TotalRowHeight` and
the single row height both `1e-17` on a 100 by 100 canvas, the quotient
`100 / 1e-17 = 1e19` exceeds the largest `int`; where the conversion then
yields the smallest `int` (as on amd64), the row gets pixel height `-92` and
its bottom edge lies above `StartCoords.Y`. -/
theorem New_rows_within_height_overflow :
    validateKeymap kmTinyTotal = none ∧
      ∃ kb, New (fun _ _ => minInt) kmTinyTotal 100 100 = some (kb, none) ∧
        kb.heightPX = 100 ∧ kb.StartCoords.Y = 0 ∧
        maxInt < goInt ((kb.heightPX : ℚ) / kmTinyTotal.TotalRowHeight) ∧
        kb.rhUnitWidth = minInt ∧ kb.rows.map Row.rowHeight = [-92] := by
  have hH : (builtKeyboard (fun _ _ => minInt) kmTinyTotal 100 100).heightPX = 100 := by
    norm_num [builtKeyboard, baseKeyboard, marginPx, mathRound, goInt, kmTinyTotal]
  have hQ : goInt (((100 : ℤ) : ℚ) / kmTinyTotal.TotalRowHeight) = 10 ^ 19 := by
    norm_num [goInt, kmTinyTotal]
  have hU : (baseKeyboard (fun _ _ => minInt) kmTinyTotal 100 100).rhUnitWidth = minInt := by
    have h100 : (100 : ℤ) - marginPx 100 kmTinyTotal.KBmargins.Top -
        marginPx 100 kmTinyTotal.KBmargins.Bottom = 100 := hH
    show intOfQuot (fun _ _ => minInt) ((100 : ℤ) - marginPx 100 kmTinyTotal.KBmargins.Top -
      marginPx 100 kmTinyTotal.KBmargins.Bottom) kmTinyTotal.TotalRowHeight = minInt
    rw [h100]
    unfold intOfQuot
    rw [if_neg (by
      rw [hQ]
      rintro ⟨-, -, h⟩
      revert h
      decide)]
    decide
  have hR : (builtKeyboard (fun _ _ => minInt) kmTinyTotal 100 100).rows.map Row.rowHeight =
      [-92] := by
    have hc : ⌈(-(70368744177664 / 762939453125) : ℚ)⌉ = -92 := by
      rw [Int.ceil_eq_iff]
      norm_num
    show (compiledRows _ _ _).map Row.rowHeight = [-92]
    rw [compiledRows_heights, hU]
    norm_num [kmTinyTotal, goInt, minInt, hc]
  refine ⟨validateKeymap_kmTinyTotal, _, New_of_valid _ _ _ _ validateKeymap_kmTinyTotal,
    hH, ?_, ?_, hU, hR⟩
  · norm_num [builtKeyboard, baseKeyboard, marginPx, mathRound, goInt, kmTinyTotal]
  · rw [hH, hQ]
    decide

/-! ## GetPressedKey -/

theorem since_lt_iff (now t : ℤ) :
    since now t < 50 * millisecond ↔ now - t < 50 * millisecond := by
  simp only [since, minDuration, maxDuration, millisecond, max_lt_iff, min_lt_iff]
  omega

theorem debounceStep_error (v : VirtKeyboard) (now : ℤ) (k : Key) :
    (debounceStep v now k).2.2 = none ∨ (debounceStep v now k).2.2 = some .debounce := by
  unfold debounceStep
  split
  · exact Or.inl rfl
  · split
    · exact Or.inr rfl
    · exact Or.inl rfl

theorem keyScan_error (v : VirtKeyboard) (now inX : ℤ) (keys : List Key) (remaining i : ℕ)
    (res : VirtKeyboard × Key × Option OskError)
    (h : keyScan v now inX keys remaining i = some res) :
    res.2.2 ≠ some .outOfBounds := by
  induction remaining generalizing i with
  | zero =>
    simp only [keyScan, Option.some.injEq] at h
    subst h
    simp
  | succ n ih =>
    simp only [keyScan] at h
    split at h
    · cases h
    · split at h
      · simp only [Option.some.injEq] at h
        subst h
        rcases debounceStep_error v now _ with h1 | h1 <;> rw [h1] <;> simp
      · exact ih _ h

/-- C8: a pointer outside the closed rectangle from `StartCoords` to
`StartCoords + (widthPX, heightPX)` gets the out-of-bounds error with the zero
key and an unchanged keyboard state, and the out-of-bounds error is returned
for no other pointer. -/
theorem GetPressedKey_out_of_bounds (v : VirtKeyboard) (now inX inY : ℤ) :
    ((inY < v.StartCoords.Y ∨ inY > v.StartCoords.Y + v.heightPX ∨
        inX < v.StartCoords.X ∨ inX > v.StartCoords.X + v.widthPX) →
      GetPressedKey v now inX inY = some (v, zeroKey, some .outOfBounds)) ∧
    (∀ v' k, GetPressedKey v now inX inY = some (v', k, some .outOfBounds) →
      (inY < v.StartCoords.Y ∨ inY > v.StartCoords.Y + v.heightPX ∨
        inX < v.StartCoords.X ∨ inX > v.StartCoords.X + v.widthPX)) := by
  refine ⟨?_, ?_⟩
  · intro h
    unfold GetPressedKey
    by_cases hy : inY < v.StartCoords.Y ∨ inY > v.StartCoords.Y + v.heightPX
    · rw [if_pos hy]
    · have hx : inX < v.StartCoords.X ∨ inX > v.StartCoords.X + v.widthPX := by
        rcases h with h | h | h | h
        · exact absurd (Or.inl h) hy
        · exact absurd (Or.inr h) hy
        · exact Or.inl h
        · exact Or.inr h
      rw [if_neg hy, if_pos hx]
  · intro v' k h
    by_contra hcon
    simp only [not_or] at hcon
    have hy : ¬ (inY < v.StartCoords.Y ∨ inY > v.StartCoords.Y + v.heightPX) := by
      rintro (h1 | h1)
      · exact hcon.1 h1
      · exact hcon.2.1 h1
    have hx : ¬ (inX < v.StartCoords.X ∨ inX > v.StartCoords.X + v.widthPX) := by
      rintro (h1 | h1)
      · exact hcon.2.2.1 h1
      · exact hcon.2.2.2 h1
    unfold GetPressedKey at h
    rw [if_neg hy, if_neg hx] at h
    simp only at h
    split at h
    · split at h
      · cases h
      · exact keyScan_error _ _ _ _ _ _ _ h rfl
    · cases h

/-- C8, on the sample keyboard (origin `(0, 20)`, size 100 by 160): the
pointer `(50, 181)` is one pixel below the bottom bound and is rejected with
the state unchanged, while `(100, 180)` on the inclusive corner is not. -/
theorem GetPressedKey_out_of_bounds_witness :
    GetPressedKey kbSample 0 50 181 = some (kbSample, zeroKey, some .outOfBounds) ∧
      ¬ (∃ v' k, GetPressedKey kbSample 0 100 180 = some (v', k, some .outOfBounds)) := by
  refine ⟨(GetPressedKey_out_of_bounds kbSample 0 50 181).1 (by decide), ?_⟩
  rintro ⟨v', k, h⟩
  have := (GetPressedKey_out_of_bounds kbSample 0 100 180).2 v' k h
  revert this
  decide

theorem rowScan_of_first (inY : ℤ) (rows : List Row) (i0 : ℕ) (y0 : ℤ) (i : ℕ) (row : Row)
    (hrow : rows[i]? = some row) (hle : inY ≤ rowTop y0 rows (i + 1))
    (hlt : ∀ i' : ℕ, i' < i → rowTop y0 rows (i' + 1) < inY) :
    rowScan inY rows i0 y0 = ((i0 + i : ℕ) : ℤ) := by
  induction rows generalizing i0 y0 i with
  | nil => simp at hrow
  | cons r rs ih =>
    cases i with
    | zero =>
      simp only [rowTop, zero_add, List.take_succ_cons, List.take_zero, List.map_cons,
        List.map_nil, List.sum_cons, List.sum_nil, add_zero] at hle
      simp only [rowScan, if_pos hle, add_zero]
    | succ i =>
      have h0 := hlt 0 (Nat.succ_pos _)
      simp only [rowTop, zero_add, List.take_succ_cons, List.take_zero, List.map_cons,
        List.map_nil, List.sum_cons, List.sum_nil, add_zero] at h0
      have hrow' : rs[i]? = some row := by simpa using hrow
      have hle' : inY ≤ rowTop (y0 + r.rowHeight) rs (i + 1) := by
        simp only [rowTop, List.take_succ_cons, List.map_cons, List.sum_cons] at hle ⊢
        omega
      have hlt' : ∀ i' : ℕ, i' < i → rowTop (y0 + r.rowHeight) rs (i' + 1) < inY := by
        intro i' hi'
        have := hlt (i' + 1) (by omega)
        simp only [rowTop, List.take_succ_cons, List.map_cons, List.sum_cons] at this ⊢
        omega
      simp only [rowScan, if_neg (not_le.mpr h0)]
      rw [ih (i0 + 1) _ i hrow' hle' hlt']
      congr 1
      omega

theorem keyScan_of_first (v : VirtKeyboard) (now inX : ℤ) (keys : List Key) (j : ℕ) (K : Key)
    (remaining i0 : ℕ) (hrem : i0 + j < i0 + remaining)
    (hK : keys[i0 + j]? = some K) (hle : inX ≤ K.coord.X + K.width)
    (hlt : ∀ (j' : ℕ) (k' : Key), j' < j → keys[i0 + j']? = some k' →
      k'.coord.X + k'.width < inX) :
    keyScan v now inX keys remaining i0 = some (debounceStep v now K) := by
  induction j generalizing remaining i0 with
  | zero =>
    cases remaining with
    | zero => omega
    | succ n =>
      simp only [add_zero] at hK
      simp only [keyScan, hK, if_pos hle]
  | succ j ih =>
    cases remaining with
    | zero => omega
    | succ n =>
      have hi0 : i0 < keys.length := by
        by_contra hcon
        rw [List.getElem?_eq_none (by omega)] at hK
        cases hK
      have h0 := hlt 0 keys[i0] (Nat.succ_pos _) (by simp [List.getElem?_eq_getElem hi0])
      have hK' : keys[i0 + 1 + j]? = some K := by
        rw [show i0 + 1 + j = i0 + (j + 1) by omega]
        exact hK
      have hlt' : ∀ (j' : ℕ) (k' : Key), j' < j → keys[i0 + 1 + j']? = some k' →
          k'.coord.X + k'.width < inX := by
        intro j' k' hj' hk'
        refine hlt (j' + 1) k' (by omega) ?_
        rw [show i0 + (j' + 1) = i0 + 1 + j' by omega]
        exact hk'
      simp only [keyScan, List.getElem?_eq_getElem hi0, if_neg (not_le.mpr h0)]
      exact ih n (i0 + 1) (by omega) hK' hlt'

theorem GetPressedKey_of_resolves (v : VirtKeyboard) (now inX inY : ℤ) (K : Key)
    (h : Resolves v inX inY K) :
    GetPressedKey v now inX inY = some (debounceStep v now K) := by
  obtain ⟨⟨hy1, hy2, hx1, hx2⟩, i, row, j, hrow, hle, hlt, hK, hKle, hKlt⟩ := h
  have hy : ¬ (inY < v.StartCoords.Y ∨ inY > v.StartCoords.Y + v.heightPX) := by
    rintro (h1 | h1) <;> omega
  have hx : ¬ (inX < v.StartCoords.X ∨ inX > v.StartCoords.X + v.widthPX) := by
    rintro (h1 | h1) <;> omega
  have hscan := rowScan_of_first inY v.rows 0 v.StartCoords.Y i row hrow hle hlt
  have hj : j < row.keys.length := by
    by_contra hcon
    rw [List.getElem?_eq_none (by omega)] at hK
    cases hK
  unfold GetPressedKey
  rw [if_neg hy, if_neg hx]
  simp only [hscan, zero_add, ge_iff_le, Int.natCast_nonneg, if_true, Int.toNat_ofNat, hrow]
  exact keyScan_of_first v now inX row.keys j K row.keys.length 0 (by omega)
    (by simpa using hK) hKle (by simpa using hKlt)
theorem resolves_kbSample_pad : Resolves kbSample 50 30 padKey := by
  refine ⟨⟨by decide, by decide, by decide, by decide⟩, 0, _, 1, rfl, by decide,
    fun i' hi' => absurd hi' (Nat.not_lt_zero _), rfl, by decide, ?_⟩
  intro j' k' hj' hk'
  have hj0 : j' = 0 := by omega
  subst hj0
  obtain rfl : (⟨⟨0, 20⟩, 40, true, 0, 97⟩ : Key) = k' := Option.some.inj hk'
  decide

theorem resolves_kbPressed_pad : Resolves kbPressed 50 30 padKey := by
  refine ⟨⟨by decide, by decide, by decide, by decide⟩, 0, _, 1, rfl, by decide,
    fun i' hi' => absurd hi' (Nat.not_lt_zero _), rfl, by decide, ?_⟩
  intro j' k' hj' hk'
  have hj0 : j' = 0 := by omega
  subst hj0
  obtain rfl : (⟨⟨0, 20⟩, 40, true, 0, 97⟩ : Key) = k' := Option.some.inj hk'
  decide

theorem debounceStep_of_ne (v : VirtKeyboard) (now : ℤ) (K : Key) (h : K ≠ v.prevKey) :
    debounceStep v now K = ({ v with prevKey := K, debounceStartTm := now }, K, none) := by
  simp only [debounceStep, if_pos h]

theorem debounceStep_of_early (v : VirtKeyboard) (now : ℤ) (K : Key) (h : K = v.prevKey)
    (ht : now - v.debounceStartTm < 50 * millisecond) :
    debounceStep v now K = (v, zeroKey, some .debounce) := by
  simp only [debounceStep, if_neg (not_not.mpr h), if_pos ((since_lt_iff _ _).mpr ht)]

theorem debounceStep_of_late (v : VirtKeyboard) (now : ℤ) (K : Key) (h : K = v.prevKey)
    (ht : 50 * millisecond ≤ now - v.debounceStartTm) :
    debounceStep v now K = ({ v with prevKey := K, debounceStartTm := now }, K, none) := by
  have hns : ¬ since now v.debounceStartTm < 50 * millisecond := by
    rw [since_lt_iff]
    exact not_lt.mpr ht
  simp only [debounceStep, if_neg (not_not.mpr h), if_neg hns]

/-- C9 (amended): `GetPressedKey` has no padding-hit error.  When the scan
resolves the pointer to a padding key `K` (`IsKey = false`), `K` goes through
the debounce filter like any other key: it is returned with a nil error when
it differs from `prevKey` or 50ms have passed, and the call fails with the
debounce error otherwise; a key returned with a nil error is `K` itself, with
`IsKey = false`. -/
theorem GetPressedKey_padding (v : VirtKeyboard) (now inX inY : ℤ) (K : Key)
    (h : Resolves v inX inY K) (hpad : K.IsKey = false) :
    ((K ≠ v.prevKey ∨ 50 * millisecond ≤ now - v.debounceStartTm) →
      GetPressedKey v now inX inY =
        some ({ v with prevKey := K, debounceStartTm := now }, K, none)) ∧
    ((K = v.prevKey ∧ now - v.debounceStartTm < 50 * millisecond) →
      GetPressedKey v now inX inY = some (v, zeroKey, some .debounce)) ∧
    (∀ v' k, GetPressedKey v now inX inY = some (v', k, none) → k = K ∧ k.IsKey = false) := by
  have hG := GetPressedKey_of_resolves v now inX inY K h
  refine ⟨?_, ?_, ?_⟩
  · intro hc
    by_cases hne : K = v.prevKey
    · rcases hc with hc | hc
      · exact absurd hne hc
      · rw [hG, debounceStep_of_late v now K hne hc]
    · rw [hG, debounceStep_of_ne v now K hne]
  · rintro ⟨he, ht⟩
    rw [hG, debounceStep_of_early v now K he ht]
  · intro v' k hk
    rw [hG] at hk
    by_cases hne : K = v.prevKey
    · by_cases ht : now - v.debounceStartTm < 50 * millisecond
      · rw [debounceStep_of_early v now K hne ht] at hk
        cases hk
      · rw [debounceStep_of_late v now K hne (not_lt.mp ht)] at hk
        cases hk
        exact ⟨rfl, hpad⟩
    · rw [debounceStep_of_ne v now K hne] at hk
      cases hk
      exact ⟨rfl, hpad⟩

/-- C9 (amended), on the sample keyboard: the pointer `(50, 30)` resolves to
the padding key, which is returned with a nil error. -/
theorem GetPressedKey_padding_witness :
    GetPressedKey kbSample 0 50 30 = some (kbPressed, padKey, none) :=
  (GetPressedKey_padding kbSample 0 50 30 padKey resolves_kbSample_pad rfl).1
    (Or.inl (by decide))

/-- C9, counterexample: on the keyboard `New` builds from the sample
description for a 100 by 200 canvas, the pointer `(50, 30)` lies in the
padding key of row 0, and `GetPressedKey` returns that key with a nil error
although its `IsKey` is false. -/
theorem GetPressedKey_padding_counterexample :
    New (fun _ _ => 0) kmSample 100 200 = some (kbSample, none) ∧
      GetPressedKey kbSample 0 50 30 = some (kbPressed, padKey, none) ∧
      padKey.IsKey = false := by
  refine ⟨New_kmSample, ?_, rfl⟩
  rw [GetPressedKey_of_resolves kbSample 0 50 30 padKey resolves_kbSample_pad,
    debounceStep_of_ne _ _ _ (by decide)]
  rfl

/-- C10: when the scan of `GetPressedKey` resolves the pointer to key `K` at
clock reading `now`: (1) if `K ≠ prevKey`, `K` is returned with a nil error and
the state becomes `prevKey = K`, `debounceStartTm = now`; (2) if `K = prevKey`
and `now - debounceStartTm < 50ms`, the debounce error is returned and the
state is unchanged; (3) if `K = prevKey` and `now - debounceStartTm ≥ 50ms`,
`K` is returned with a nil error and `debounceStartTm` becomes `now`.  Two
keys are equal exactly when all their fields are. -/
theorem GetPressedKey_debounce (v : VirtKeyboard) (now inX inY : ℤ) (K : Key)
    (h : Resolves v inX inY K) :
    (K ≠ v.prevKey →
      GetPressedKey v now inX inY =
        some ({ v with prevKey := K, debounceStartTm := now }, K, none)) ∧
    (K = v.prevKey → now - v.debounceStartTm < 50 * millisecond →
      GetPressedKey v now inX inY = some (v, zeroKey, some .debounce)) ∧
    (K = v.prevKey → 50 * millisecond ≤ now - v.debounceStartTm →
      GetPressedKey v now inX inY = some ({ v with debounceStartTm := now }, K, none)) ∧
    (∀ a b : Key, a = b ↔
      a.coord.X = b.coord.X ∧ a.coord.Y = b.coord.Y ∧ a.width = b.width ∧
        a.IsKey = b.IsKey ∧ a.KeyType = b.KeyType ∧ a.KeyCode = b.KeyCode) := by
  have hG := GetPressedKey_of_resolves v now inX inY K h
  refine ⟨?_, ?_, ?_, ?_⟩
  · intro hne
    rw [hG, debounceStep_of_ne v now K hne]
  · intro he ht
    rw [hG, debounceStep_of_early v now K he ht]
  · intro he ht
    rw [hG, debounceStep_of_late v now K he ht, he]
  · intro a b
    constructor
    · rintro rfl
      exact ⟨rfl, rfl, rfl, rfl, rfl, rfl⟩
    · obtain ⟨⟨ax, ay⟩, aw, ai, at', ac⟩ := a
      obtain ⟨⟨bx, b_y⟩, bw, bi, bt, bc⟩ := b
      rintro ⟨h1, h2, h3, h4, h5, h6⟩
      simp only at h1 h2 h3 h4 h5 h6
      subst h1 h2 h3 h4 h5 h6
      rfl

/-- C10, on the sample keyboard with the pointer `(50, 30)` in the padding
key: the first press at time 0 is accepted and recorded, a press 10ms later is
suppressed with the state unchanged, and a press 60ms after the first is
accepted and restarts the window. -/
theorem GetPressedKey_debounce_witness :
    GetPressedKey kbSample 0 50 30 = some (kbPressed, padKey, none) ∧
      GetPressedKey kbPressed (10 * millisecond) 50 30 =
        some (kbPressed, zeroKey, some .debounce) ∧
      GetPressedKey kbPressed (60 * millisecond) 50 30 =
        some ({ kbPressed with debounceStartTm := 60 * millisecond }, padKey, none) :=
  ⟨(GetPressedKey_debounce kbSample 0 50 30 padKey resolves_kbSample_pad).1 (by decide),
    (GetPressedKey_debounce kbPressed (10 * millisecond) 50 30 padKey
      resolves_kbPressed_pad).2.1 rfl (by decide),
    (GetPressedKey_debounce kbPressed (60 * millisecond) 50 30 padKey
      resolves_kbPressed_pad).2.2.1 rfl (by decide)⟩
/-! ## Bursts of presses -/

theorem resolves_of_sameLayout (v w : VirtKeyboard) (h : SameLayout v w) (inX inY : ℤ) (K : Key)
    (hr : Resolves v inX inY K) : Resolves w inX inY K := by
  obtain ⟨hW, hH, -, -, hS, hR⟩ := h
  unfold Resolves InBounds at hr ⊢
  rw [← hW, ← hH, ← hS, ← hR]
  exact hr

theorem chain_le_last (a : ℤ) (l : List ℤ) (hc : List.Chain (· ≤ ·) a l) (b : ℤ)
    (hb : (a :: l).getLast? = some b) : ∀ t ∈ a :: l, t ≤ b := by
  induction l generalizing a with
  | nil =>
    simp only [List.getLast?_singleton, Option.some.injEq] at hb
    intro t ht
    simp only [List.mem_singleton] at ht
    omega
  | cons c l ih =>
    obtain ⟨hac, hcl⟩ := List.chain_cons.mp hc
    have hb' : (c :: l).getLast? = some b := by
      rw [List.getLast?_cons_cons] at hb
      exact hb
    have hrest := ih c hcl hb'
    intro t ht
    rcases List.mem_cons.mp ht with rfl | ht'
    · exact le_trans hac (hrest c (List.mem_cons_self _ _))
    · exact hrest t ht'

theorem pressAll_suppressed (v : VirtKeyboard) (K : Key) (hK : K = v.prevKey)
    (later : List (ℤ × ℤ × ℤ))
    (hres : ∀ c ∈ later, Resolves v c.2.1 c.2.2 K)
    (ht : ∀ c ∈ later, c.1 - v.debounceStartTm < 50 * millisecond) :
    pressAll v later = some (v, later.map (fun _ => (zeroKey, some OskError.debounce))) := by
  induction later with
  | nil => rfl
  | cons c cs ih =>
    have h1 := GetPressedKey_of_resolves v c.1 c.2.1 c.2.2 K (hres c (List.mem_cons_self _ _))
    rw [debounceStep_of_early v c.1 K hK (ht c (List.mem_cons_self _ _))] at h1
    have h2 := ih (fun c' hc' => hres c' (List.mem_cons_of_mem _ hc'))
      (fun c' hc' => ht c' (List.mem_cons_of_mem _ hc'))
    simp only [pressAll, h1, h2, List.map_cons]

theorem New_fresh (nonFinite : ℤ → ℚ → ℤ) (km : KeyMap) (fbWidth fbHeight : ℤ) (kb : VirtKeyboard)
    (err : Option OskError) (h : New nonFinite km fbWidth fbHeight = some (kb, err)) :
    kb.prevKey = zeroKey ∧ kb.debounceStartTm = zeroTime := by
  cases hv : validateKeymap km with
  | some e =>
    rw [New_of_invalid nonFinite km fbWidth fbHeight e hv] at h
    cases h
    exact ⟨rfl, rfl⟩
  | none =>
    rw [New_of_valid nonFinite km fbWidth fbHeight hv] at h
    cases h
    exact ⟨rfl, rfl⟩

/-- C11: on a keyboard freshly built by `New`, a burst of presses that all
resolve to the same interactive key `K`, at times `t0 ≤ t1 ≤ … ≤ tn` with
`tn - t0 < 50ms`, returns `K` for the press at `t0` and the debounce error for
every later press of the burst, leaving the state recorded at `t0`; a further
press resolving to `K` at any time `T ≥ t0 + 50ms` returns `K` again, however
many presses were suppressed. -/
theorem GetPressedKey_burst (nonFinite : ℤ → ℚ → ℤ) (km : KeyMap) (fbWidth fbHeight : ℤ)
    (kb : VirtKeyboard) (K : Key) (t0 x0 y0 : ℤ) (later : List (ℤ × ℤ × ℤ)) (T x y : ℤ)
    (hnew : New nonFinite km fbWidth fbHeight = some (kb, none))
    (hK : K.IsKey = true)
    (h0 : Resolves kb x0 y0 K)
    (hres : ∀ c ∈ later, Resolves kb c.2.1 c.2.2 K)
    (hsorted : List.Chain (· ≤ ·) t0 (later.map Prod.fst))
    (hlast : ∀ tn, (t0 :: later.map Prod.fst).getLast? = some tn → tn - t0 < 50 * millisecond)
    (hT : Resolves kb x y K) (hTime : t0 + 50 * millisecond ≤ T) :
    GetPressedKey kb t0 x0 y0 =
        some ({ kb with prevKey := K, debounceStartTm := t0 }, K, none) ∧
      pressAll { kb with prevKey := K, debounceStartTm := t0 } later =
        some ({ kb with prevKey := K, debounceStartTm := t0 },
          later.map (fun _ => (zeroKey, some OskError.debounce))) ∧
      GetPressedKey { kb with prevKey := K, debounceStartTm := t0 } T x y =
        some ({ kb with prevKey := K, debounceStartTm := T }, K, none) := by
  have hfresh := (New_fresh nonFinite km fbWidth fbHeight kb none hnew).1
  have hne : K ≠ kb.prevKey := by
    rw [hfresh]
    intro hz
    rw [hz] at hK
    exact absurd hK (by decide)
  have hlay : SameLayout kb { kb with prevKey := K, debounceStartTm := t0 } :=
    ⟨rfl, rfl, rfl, rfl, rfl, rfl⟩
  have hlastEx : ∃ tn, (t0 :: later.map Prod.fst).getLast? = some tn := by
    cases hl : (t0 :: later.map Prod.fst).getLast? with
    | none => simp at hl
    | some tn => exact ⟨tn, rfl⟩
  obtain ⟨tn, htn⟩ := hlastEx
  have hle := chain_le_last t0 _ hsorted tn htn
  have hlt := hlast tn htn
  refine ⟨?_, ?_, ?_⟩
  · rw [GetPressedKey_of_resolves kb t0 x0 y0 K h0, debounceStep_of_ne kb t0 K hne]
  · apply pressAll_suppressed _ K rfl
    · intro c hc
      exact resolves_of_sameLayout _ _ hlay _ _ _ (hres c hc)
    · intro c hc
      have := hle c.1 (List.mem_cons_of_mem _ (List.mem_map_of_mem _ hc))
      show c.1 - t0 < 50 * millisecond
      omega
  · rw [GetPressedKey_of_resolves _ T x y K (resolves_of_sameLayout _ _ hlay _ _ _ hT),
      debounceStep_of_late _ T K rfl (by show 50 * millisecond ≤ T - t0; omega)]

theorem validateKeymap_kmSingle : validateKeymap kmSingle = none := by
  rw [validateKeymap_eq_none_iff]
  norm_num [kmSingle, rowWidth, totalHeight]

theorem New_kmSingle : New (fun _ _ => 0) kmSingle 100 100 = some (kbSingle, none) := by
  rw [New_of_valid _ _ _ _ validateKeymap_kmSingle]
  have h1 : keyCodeOf ⟨false, 0, 1, "a"⟩ = 97 := keyCodeOf_first false 1 (Char.ofNat 97) []
  norm_num [builtKeyboard, baseKeyboard, marginPx, mathRound, goInt, intOfQuot, minInt, maxInt, kmSingle,
    kbSingle, singleKey, compiledRows, compiledKeys, compiledKey, h1]

theorem resolves_kbSingle : Resolves kbSingle 50 50 singleKey :=
  ⟨⟨by decide, by decide, by decide, by decide⟩, 0, _, 0, rfl, by decide,
    fun i' hi' => absurd hi' (Nat.not_lt_zero _), rfl, by decide,
    fun j' _ hj' => absurd hj' (Nat.not_lt_zero _)⟩

/-- C11, the single key filling a 100 by 100 canvas pressed at `(50, 50)` at
0ms, 10ms and 60ms: the key, the debounce error, the key. -/
theorem GetPressedKey_burst_witness :
    GetPressedKey kbSingle 0 50 50 =
        some ({ kbSingle with prevKey := singleKey, debounceStartTm := 0 }, singleKey, none) ∧
      pressAll { kbSingle with prevKey := singleKey, debounceStartTm := 0 }
          [(10 * millisecond, 50, 50)] =
        some ({ kbSingle with prevKey := singleKey, debounceStartTm := 0 },
          [(zeroKey, some OskError.debounce)]) ∧
      GetPressedKey { kbSingle with prevKey := singleKey, debounceStartTm := 0 }
          (60 * millisecond) 50 50 =
        some ({ kbSingle with prevKey := singleKey, debounceStartTm := 60 * millisecond },
          singleKey, none) :=
  GetPressedKey_burst (fun _ _ => 0) kmSingle 100 100 kbSingle singleKey 0 50 50
    [(10 * millisecond, 50, 50)] (60 * millisecond) 50 50 New_kmSingle rfl resolves_kbSingle
    (by
      intro c hc
      simp only [List.mem_singleton] at hc
      subst hc
      exact resolves_kbSingle)
    (by simp [millisecond])
    (by
      intro tn htn
      simp only [List.map_cons, List.map_nil, List.getLast?_cons_cons, List.getLast?_singleton,
        Option.some.injEq] at htn
      subst htn
      decide)
    resolves_kbSingle (by decide)
/-! ## What the scan of GetPressedKey selects -/

theorem rowTop_cons (y0 : ℤ) (r : Row) (rs : List Row) (i : ℕ) :
    rowTop y0 (r :: rs) (i + 1) = rowTop (y0 + r.rowHeight) rs i := by
  simp only [rowTop, List.take_succ_cons, List.map_cons, List.sum_cons]
  ring

theorem rowTop_zero (y0 : ℤ) (rows : List Row) : rowTop y0 rows 0 = y0 := by
  simp [rowTop]

theorem rowTop_succ (y0 : ℤ) (rows : List Row) (i : ℕ) (row : Row) (h : rows[i]? = some row) :
    rowTop y0 rows (i + 1) = rowTop y0 rows i + row.rowHeight := by
  induction rows generalizing y0 i with
  | nil => simp at h
  | cons r rs ih =>
    cases i with
    | zero =>
      simp only [List.getElem?_cons_zero, Option.some.injEq] at h
      subst h
      rw [rowTop_cons, rowTop_zero, rowTop_zero]
    | succ i =>
      simp only [List.getElem?_cons_succ] at h
      rw [rowTop_cons, rowTop_cons, ih _ i h]

theorem rowScan_cases (inY : ℤ) (rows : List Row) (i0 : ℕ) (y0 : ℤ) :
    (rowScan inY rows i0 y0 = -1 ∧
      ∀ i : ℕ, i < rows.length → rowTop y0 rows (i + 1) < inY) ∨
    (∃ i row, rows[i]? = some row ∧ rowScan inY rows i0 y0 = ((i0 + i : ℕ) : ℤ) ∧
      inY ≤ rowTop y0 rows (i + 1) ∧
      ∀ i' : ℕ, i' < i → rowTop y0 rows (i' + 1) < inY) := by
  induction rows generalizing i0 y0 with
  | nil =>
    left
    exact ⟨rfl, fun i hi => absurd hi (Nat.not_lt_zero _)⟩
  | cons r rs ih =>
    by_cases h : inY ≤ y0 + r.rowHeight
    · right
      refine ⟨0, r, List.getElem?_cons_zero, ?_, ?_, fun i' hi' => absurd hi' (Nat.not_lt_zero _)⟩
      · simp only [rowScan, if_pos h, add_zero]
      · rw [rowTop_cons, rowTop_zero]
        exact h
    · have h0 : rowTop y0 (r :: rs) (0 + 1) < inY := by
        rw [rowTop_cons, rowTop_zero]
        exact not_le.mp h
      rcases ih (i0 + 1) (y0 + r.rowHeight) with ⟨hs, hall⟩ | ⟨i, row, hrow, hs, hle, hlt⟩
      · left
        refine ⟨by simp only [rowScan, if_neg h, hs], ?_⟩
        intro i hi
        cases i with
        | zero => exact h0
        | succ i =>
          rw [rowTop_cons]
          exact hall i (by simpa using hi)
      · right
        refine ⟨i + 1, row, by simpa using hrow, ?_, ?_, ?_⟩
        · simp only [rowScan, if_neg h, hs]
          congr 1
          omega
        · rw [rowTop_cons]
          exact hle
        · intro i' hi'
          cases i' with
          | zero => exact h0
          | succ i' =>
            rw [rowTop_cons]
            exact hlt i' (by omega)

theorem keyScan_cases (v : VirtKeyboard) (now inX : ℤ) (keys : List Key) (remaining i0 : ℕ)
    (hlen : i0 + remaining = keys.length) :
    (keyScan v now inX keys remaining i0 = some (v, zeroKey, some .keyNotFound) ∧
      ∀ (j : ℕ) (k : Key), i0 ≤ j → keys[j]? = some k → k.coord.X + k.width < inX) ∨
    (∃ j K, keys[i0 + j]? = some K ∧ inX ≤ K.coord.X + K.width ∧
      (∀ (j' : ℕ) (k' : Key), j' < j → keys[i0 + j']? = some k' →
        k'.coord.X + k'.width < inX) ∧
      keyScan v now inX keys remaining i0 = some (debounceStep v now K)) := by
  induction remaining generalizing i0 with
  | zero =>
    left
    refine ⟨rfl, ?_⟩
    intro j k hj hk
    rw [List.getElem?_eq_none (by omega)] at hk
    cases hk
  | succ n ih =>
    have hi0 : i0 < keys.length := by omega
    by_cases h : inX ≤ keys[i0].coord.X + keys[i0].width
    · right
      refine ⟨0, keys[i0], by simp [List.getElem?_eq_getElem hi0], h,
        fun j' _ hj' => absurd hj' (Nat.not_lt_zero _), ?_⟩
      simp only [keyScan, List.getElem?_eq_getElem hi0, if_pos h]
    · rcases ih (i0 + 1) (by omega) with ⟨hs, hall⟩ | ⟨j, K, hK, hle, hlt, hs⟩
      · left
        refine ⟨by simp only [keyScan, List.getElem?_eq_getElem hi0, if_neg h, hs], ?_⟩
        intro j k hj hk
        by_cases hji : j = i0
        · subst hji
          rw [List.getElem?_eq_getElem hi0] at hk
          cases hk
          exact not_le.mp h
        · exact hall j k (by omega) hk
      · right
        refine ⟨j + 1, K, ?_, hle, ?_, ?_⟩
        · rw [show i0 + (j + 1) = i0 + 1 + j by omega]
          exact hK
        · intro j' k' hj' hk'
          cases j' with
          | zero =>
            simp only [add_zero, List.getElem?_eq_getElem hi0, Option.some.injEq] at hk'
            subst hk'
            exact not_le.mp h
          | succ j' =>
            refine hlt j' k' (by omega) ?_
            rw [show i0 + 1 + j' = i0 + (j' + 1) by omega]
            exact hk'
        · simp only [keyScan, List.getElem?_eq_getElem hi0, if_neg h, hs]

theorem GetPressedKey_of_inBounds (v : VirtKeyboard) (now inX inY : ℤ)
    (hb : InBounds v inX inY) :
    GetPressedKey v now inX inY =
      if rowScan inY v.rows 0 v.StartCoords.Y ≥ 0 then
        match v.rows[(rowScan inY v.rows 0 v.StartCoords.Y).toNat]? with
        | none => none
        | some row => keyScan v now inX row.keys row.keys.length 0
      else some (v, zeroKey, some .keyNotFound) := by
  obtain ⟨hy1, hy2, hx1, hx2⟩ := hb
  have hy : ¬ (inY < v.StartCoords.Y ∨ inY > v.StartCoords.Y + v.heightPX) := by
    rintro (h1 | h1) <;> omega
  have hx : ¬ (inX < v.StartCoords.X ∨ inX > v.StartCoords.X + v.widthPX) := by
    rintro (h1 | h1) <;> omega
  unfold GetPressedKey
  rw [if_neg hy, if_neg hx]

theorem GetPressedKey_cases (v : VirtKeyboard) (now inX inY : ℤ) (hb : InBounds v inX inY) :
    (∃ K, Resolves v inX inY K ∧
      GetPressedKey v now inX inY = some (debounceStep v now K)) ∨
    (GetPressedKey v now inX inY = some (v, zeroKey, some .keyNotFound) ∧
      ((∀ i : ℕ, i < v.rows.length → rowTop v.StartCoords.Y v.rows (i + 1) < inY) ∨
        ∃ i row, v.rows[i]? = some row ∧ inY ≤ rowTop v.StartCoords.Y v.rows (i + 1) ∧
          (∀ i' : ℕ, i' < i → rowTop v.StartCoords.Y v.rows (i' + 1) < inY) ∧
          ∀ k ∈ row.keys, k.coord.X + k.width < inX)) := by
  rw [GetPressedKey_of_inBounds v now inX inY hb]
  rcases rowScan_cases inY v.rows 0 v.StartCoords.Y with
    ⟨hs, hall⟩ | ⟨i, row, hrow, hs, hle, hlt⟩
  · right
    refine ⟨?_, Or.inl hall⟩
    rw [hs]
    rfl
  · simp only [hs, zero_add, ge_iff_le, Int.natCast_nonneg, if_true, Int.toNat_ofNat, hrow]
    rcases keyScan_cases v now inX row.keys row.keys.length 0 (by omega) with
      ⟨hk, hallk⟩ | ⟨j, K, hK, hKle, hKlt, hk⟩
    · right
      refine ⟨hk, Or.inr ⟨i, row, hrow, hle, hlt, ?_⟩⟩
      intro k hkm
      obtain ⟨j, hj, hjk⟩ := List.getElem_of_mem hkm
      exact hallk j k (Nat.zero_le _) (by rw [List.getElem?_eq_getElem hj, hjk])
    · left
      refine ⟨K, ⟨hb, i, row, j, hrow, hle, hlt, by simpa using hK, hKle, ?_⟩, hk⟩
      intro j' k' hj' hk'
      exact hKlt j' k' hj' (by simpa using hk')
theorem compiledRows_key_Y (b : VirtKeyboard) (rs : List RowDesc) (y0 : ℤ) (i : ℕ) (row : Row)
    (h : (compiledRows b rs y0)[i]? = some row) :
    ∀ k ∈ row.keys, k.coord.Y = rowTop y0 (compiledRows b rs y0) i := by
  obtain ⟨hlen, hst⟩ := compiledRows_stacked b rs y0
  have hi : i < rs.length := by
    by_contra hcon
    rw [List.getElem?_eq_none (by omega)] at h
    cases h
  exact (hst i row rs[i] h (List.getElem?_eq_getElem hi)).2

theorem debounceStep_nil (v : VirtKeyboard) (now : ℤ) (K : Key) (v' : VirtKeyboard) (k : Key)
    (h : debounceStep v now K = (v', k, none)) : k = K := by
  unfold debounceStep at h
  split at h
  · cases h; rfl
  · split at h
    · cases h
    · cases h; rfl

theorem resolves_of_nil (v : VirtKeyboard) (now inX inY : ℤ) (v' : VirtKeyboard) (k : Key)
    (h : GetPressedKey v now inX inY = some (v', k, none)) : Resolves v inX inY k := by
  by_cases hb : InBounds v inX inY
  · rcases GetPressedKey_cases v now inX inY hb with ⟨K, hK, hG⟩ | ⟨hG, -⟩
    · rw [hG] at h
      have := debounceStep_nil v now K v' k (Option.some.inj h)
      rw [this]
      exact hK
    · rw [hG] at h
      cases h
  · have hoob : inY < v.StartCoords.Y ∨ inY > v.StartCoords.Y + v.heightPX ∨
        inX < v.StartCoords.X ∨ inX > v.StartCoords.X + v.widthPX := by
      unfold InBounds at hb
      by_contra hcon
      simp only [not_or, not_lt, gt_iff_lt] at hcon
      exact hb ⟨hcon.1, hcon.2.1, hcon.2.2.1, hcon.2.2.2⟩
    unfold GetPressedKey at h
    by_cases hy : inY < v.StartCoords.Y ∨ inY > v.StartCoords.Y + v.heightPX
    · rw [if_pos hy] at h
      cases h
    · have hx : inX < v.StartCoords.X ∨ inX > v.StartCoords.X + v.widthPX := by
        rcases hoob with h1 | h1 | h1 | h1
        · exact absurd (Or.inl h1) hy
        · exact absurd (Or.inr h1) hy
        · exact Or.inl h1
        · exact Or.inr h1
      rw [if_neg hy, if_pos hx] at h
      cases h

theorem built_rows (km : KeyMap) (kb : VirtKeyboard)
    (hbuilt : (∃ nonFinite fbWidth fbHeight, New nonFinite km fbWidth fbHeight = some (kb, none)) ∨
      (∃ v0, v0.rows = [] ∧ convertKeymap v0 km = some kb)) :
    ∃ b : VirtKeyboard, b.StartCoords = kb.StartCoords ∧
      kb.rows = compiledRows b km.Rows kb.StartCoords.Y := by
  rcases hbuilt with ⟨nonFinite, fbWidth, fbHeight, hnew⟩ | ⟨v0, hv0, hconv⟩
  · cases hv : validateKeymap km with
    | some e =>
      rw [New_of_invalid nonFinite km fbWidth fbHeight e hv] at hnew
      cases hnew
    | none =>
      rw [New_of_valid nonFinite km fbWidth fbHeight hv] at hnew
      cases hnew
      exact ⟨baseKeyboard nonFinite km fbWidth fbHeight, rfl, rfl⟩
  · rw [convertKeymap_eq] at hconv
    cases hconv
    exact ⟨v0, rfl, by simp [hv0]⟩

/-- C12: on a keyboard whose layout was built by `New` (or by `convertKeymap`
on a keyboard without rows), whatever its debounce state, a key that
`GetPressedKey` returns with a nil error for the pointer `(inX, inY)` belongs
to a compiled row whose vertical extent, from the key's `Y` down by the row
height, contains `inY`, and its horizontal extent contains `inX`. -/
theorem GetPressedKey_containing_key (km : KeyMap) (kb v : VirtKeyboard) (now inX inY : ℤ)
    (v' : VirtKeyboard) (k : Key)
    (hbuilt : (∃ nonFinite fbWidth fbHeight, New nonFinite km fbWidth fbHeight = some (kb, none)) ∨
      (∃ v0, v0.rows = [] ∧ convertKeymap v0 km = some kb))
    (hlay : SameLayout kb v)
    (hret : GetPressedKey v now inX inY = some (v', k, none)) :
    ∃ i row, v.rows[i]? = some row ∧ k ∈ row.keys ∧
      k.coord.Y = rowTop v.StartCoords.Y v.rows i ∧
      k.coord.Y ≤ inY ∧ inY ≤ k.coord.Y + row.rowHeight ∧
      k.coord.X ≤ inX ∧ inX ≤ k.coord.X + k.width := by
  obtain ⟨b, hbS, hbR⟩ := built_rows km kb hbuilt
  obtain ⟨-, -, -, -, hS, hR⟩ := hlay
  rw [hS] at hbS hbR
  rw [hR] at hbR
  obtain ⟨⟨hy1, -, hx1, -⟩, i, row, j, hrow, hle, hlt, hK, hKle, hKlt⟩ :=
    resolves_of_nil v now inX inY v' k hret
  have hmem : k ∈ row.keys := List.getElem?_mem hK
  have hY : k.coord.Y = rowTop v.StartCoords.Y v.rows i := by
    have hrow' := hrow
    rw [hbR] at hrow' ⊢
    exact compiledRows_key_Y b km.Rows _ i row hrow' k hmem
  have htile : Tiles v.StartCoords.X row.keys := by
    have hmemrow : row ∈ compiledRows b km.Rows v.StartCoords.Y := by
      rw [← hbR]
      exact List.getElem?_mem hrow
    rw [← hbS]
    exact compiledRows_tiles b km.Rows _ row hmemrow
  have hsucc := rowTop_succ v.StartCoords.Y v.rows i row hrow
  refine ⟨i, row, hrow, hmem, hY, ?_, ?_, ?_, hKle⟩
  · rw [hY]
    cases i with
    | zero =>
      rw [rowTop_zero]
      exact hy1
    | succ i => exact le_of_lt (hlt i (Nat.lt_succ_self i))
  · rw [hY, ← hsucc]
    exact hle
  · cases j with
    | zero =>
      rw [htile.1 k hK]
      exact hx1
    | succ j =>
      have hj : j < row.keys.length := by
        by_contra hcon
        rw [List.getElem?_eq_none (by omega)] at hK
        cases hK
      have hprev : row.keys[j]? = some row.keys[j] := List.getElem?_eq_getElem hj
      have h1 := htile.2 j row.keys[j] k hprev hK
      have h2 := hKlt j row.keys[j] (Nat.lt_succ_self j) hprev
      omega

/-- C12, on the sample keyboard after a press of the padding key: the
pointer `(70, 150)` returns the only key of row 1, whose extents contain the
pointer. -/
theorem GetPressedKey_containing_key_witness :
    ∃ i row, kbPressed.rows[i]? = some row ∧
      (⟨⟨0, 100⟩, 100, true, 0, 122⟩ : Key) ∈ row.keys ∧
      (100 : ℤ) = rowTop kbPressed.StartCoords.Y kbPressed.rows i ∧
      (100 : ℤ) ≤ 150 ∧ (150 : ℤ) ≤ 100 + row.rowHeight ∧
      (0 : ℤ) ≤ 70 ∧ (70 : ℤ) ≤ 0 + 100 :=
  GetPressedKey_containing_key kmSample kbSample kbPressed 5 70 150
    { kbPressed with prevKey := ⟨⟨0, 100⟩, 100, true, 0, 122⟩, debounceStartTm := 5 }
    ⟨⟨0, 100⟩, 100, true, 0, 122⟩
    (Or.inl ⟨fun _ _ => 0, 100, 200, New_kmSample⟩) ⟨rfl, rfl, rfl, rfl, rfl, rfl⟩ (by decide)
/-! ## GetLabel -/

/-- C13: `GetLabel` returns "ALT" for 6, "BKSP" for 2, "CPLK" for 4, "RET"
for 1, "CTRL" for 5 and "DEL" for 3, and the empty string for every other
integer, 0 included; the six labels are pairwise distinct, and the result is
the same on every keyboard. -/
theorem GetLabel_table (v : VirtKeyboard) (kt : ℤ) :
    GetLabel v KTalt = "ALT" ∧ GetLabel v KTbackspace = "BKSP" ∧
    GetLabel v KTcapsLock = "CPLK" ∧ GetLabel v KTcarriageReturn = "RET" ∧
    GetLabel v KTcontrol = "CTRL" ∧ GetLabel v KTdelete = "DEL" ∧
    (KTalt = 6 ∧ KTbackspace = 2 ∧ KTcapsLock = 4 ∧ KTcarriageReturn = 1 ∧
      KTcontrol = 5 ∧ KTdelete = 3 ∧ KTstandardChar = 0) ∧
    ((kt < 1 ∨ 6 < kt) → GetLabel v kt = "") ∧
    GetLabel v KTstandardChar = "" ∧
    ["ALT", "BKSP", "CPLK", "RET", "CTRL", "DEL"].Nodup ∧
    (∀ w : VirtKeyboard, GetLabel w kt = GetLabel v kt) := by
  refine ⟨rfl, rfl, rfl, rfl, rfl, rfl, ⟨rfl, rfl, rfl, rfl, rfl, rfl, rfl⟩, ?_, rfl,
    by decide, fun _ => rfl⟩
  intro h
  have h1 : kt ≠ 6 := by omega
  have h2 : kt ≠ 2 := by omega
  have h3 : kt ≠ 4 := by omega
  have h4 : kt ≠ 1 := by omega
  have h5 : kt ≠ 5 := by omega
  have h6 : kt ≠ 3 := by omega
  simp only [GetLabel, KTalt, KTbackspace, KTcapsLock, KTcarriageReturn, KTcontrol, KTdelete,
    if_neg h1, if_neg h2, if_neg h3, if_neg h4, if_neg h5, if_neg h6]

/-! ## The scan order of GetPressedKey -/

/-- C17: for an in-bounds pointer, `GetPressedKey` applies its debounce step
to the first key (smallest index) whose right edge is at or right of `inX`
in the first row (smallest index) whose bottom edge is at or below `inY`; when
no row qualifies, or no key of the selected row qualifies, it returns the
key-not-found error with the zero key and the state unchanged, without trying
a later row. -/
theorem GetPressedKey_scan_order (v : VirtKeyboard) (now inX inY : ℤ)
    (hb : InBounds v inX inY) :
    (∀ (i : ℕ) (row : Row), v.rows[i]? = some row →
      inY ≤ rowTop v.StartCoords.Y v.rows (i + 1) →
      (∀ i' : ℕ, i' < i → rowTop v.StartCoords.Y v.rows (i' + 1) < inY) →
      (∀ (j : ℕ) (K : Key), row.keys[j]? = some K → inX ≤ K.coord.X + K.width →
        (∀ (j' : ℕ) (k' : Key), j' < j → row.keys[j']? = some k' →
          k'.coord.X + k'.width < inX) →
        GetPressedKey v now inX inY = some (debounceStep v now K)) ∧
      ((∀ k ∈ row.keys, k.coord.X + k.width < inX) →
        GetPressedKey v now inX inY = some (v, zeroKey, some .keyNotFound))) ∧
    ((∀ i : ℕ, i < v.rows.length → rowTop v.StartCoords.Y v.rows (i + 1) < inY) →
      GetPressedKey v now inX inY = some (v, zeroKey, some .keyNotFound)) := by
  refine ⟨?_, ?_⟩
  · intro i row hrow hle hlt
    refine ⟨?_, ?_⟩
    · intro j K hK hKle hKlt
      exact GetPressedKey_of_resolves v now inX inY K
        ⟨hb, i, row, j, hrow, hle, hlt, hK, hKle, hKlt⟩
    · intro hnone
      rcases GetPressedKey_cases v now inX inY hb with ⟨K, hK, -⟩ | ⟨hG, -⟩
      · exfalso
        obtain ⟨-, i2, row2, j2, hrow2, hle2, hlt2, hK2, hKle2, -⟩ := hK
        have hii : i2 = i := by
          rcases Nat.lt_trichotomy i2 i with h | h | h
          · have := hlt i2 h
            omega
          · exact h
          · have := hlt2 i h
            omega
        subst hii
        rw [hrow] at hrow2
        cases hrow2
        have := hnone K (List.getElem?_mem hK2)
        omega
      · exact hG
  · intro hall
    rcases GetPressedKey_cases v now inX inY hb with ⟨K, hK, -⟩ | ⟨hG, -⟩
    · exfalso
      obtain ⟨-, i2, row2, j2, hrow2, hle2, -⟩ := hK
      have hi2 : i2 < v.rows.length := by
        by_contra hcon
        rw [List.getElem?_eq_none (by omega)] at hrow2
        cases hrow2
      have := hall i2 hi2
      omega
    · exact hG

/-- C17, on the sample keyboard: `(50, 30)` selects key 1 of row 0, and
`(100, 180)` on the bottom right corner selects the key of row 1; on a
keyboard whose single row is narrower than the drawable width, a pointer right
of the row is not found. -/
theorem GetPressedKey_scan_order_witness :
    GetPressedKey kbSample 0 50 30 = some (debounceStep kbSample 0 padKey) ∧
      GetPressedKey { kbSample with rows := [⟨80, [padKey]⟩] } 0 70 30 =
        some ({ kbSample with rows := [⟨80, [padKey]⟩] }, zeroKey, some .keyNotFound) ∧
      GetPressedKey { kbSample with rows := [⟨80, [padKey]⟩] } 0 70 150 =
        some ({ kbSample with rows := [⟨80, [padKey]⟩] }, zeroKey, some .keyNotFound) := by
  refine ⟨((GetPressedKey_scan_order kbSample 0 50 30
      ⟨by decide, by decide, by decide, by decide⟩).1 0 _ rfl (by decide)
      (fun i' hi' => absurd hi' (Nat.not_lt_zero _))).1 1 padKey rfl (by decide) ?_,
    ((GetPressedKey_scan_order { kbSample with rows := [⟨80, [padKey]⟩] } 0 70 30
      ⟨by decide, by decide, by decide, by decide⟩).1 0 _ rfl (by decide)
      (fun i' hi' => absurd hi' (Nat.not_lt_zero _))).2 (by decide),
    (GetPressedKey_scan_order { kbSample with rows := [⟨80, [padKey]⟩] } 0 70 150
      ⟨by decide, by decide, by decide, by decide⟩).2 (by decide)⟩
  intro j' k' hj' hk'
  have hj0 : j' = 0 := by omega
  subst hj0
  obtain rfl : (⟨⟨0, 20⟩, 40, true, 0, 97⟩ : Key) = k' := Option.some.inj hk'
  decide

/-! ## No run-time panic -/

theorem keyScan_isSome (v : VirtKeyboard) (now inX : ℤ) (keys : List Key) (remaining i0 : ℕ)
    (hlen : i0 + remaining = keys.length) :
    ∃ res, keyScan v now inX keys remaining i0 = some res := by
  rcases keyScan_cases v now inX keys remaining i0 hlen with ⟨h, -⟩ | ⟨j, K, -, -, -, h⟩
  · exact ⟨_, h⟩
  · exact ⟨_, h⟩

theorem rowScan_range (inY : ℤ) (rows : List Row) (y0 : ℤ) :
    rowScan inY rows 0 y0 = -1 ∨
      (0 ≤ rowScan inY rows 0 y0 ∧ rowScan inY rows 0 y0 < (rows.length : ℤ)) := by
  rcases rowScan_cases inY rows 0 y0 with ⟨h, -⟩ | ⟨i, row, hrow, h, -, -⟩
  · exact Or.inl h
  · right
    have hi : i < rows.length := by
      by_contra hcon
      rw [List.getElem?_eq_none (by omega)] at hrow
      cases hrow
    rw [h]
    constructor
    · exact Int.natCast_nonneg _
    · exact_mod_cast (by omega : 0 + i < rows.length)

theorem GetPressedKey_isSome (v : VirtKeyboard) (now inX inY : ℤ) :
    ∃ res, GetPressedKey v now inX inY = some res := by
  unfold GetPressedKey
  split
  · exact ⟨_, rfl⟩
  · split
    · exact ⟨_, rfl⟩
    · simp only
      rcases rowScan_cases inY v.rows 0 v.StartCoords.Y with ⟨h, -⟩ | ⟨i, row, hrow, h, -, -⟩
      · rw [h]
        exact ⟨_, rfl⟩
      · simp only [h, zero_add, ge_iff_le, Int.natCast_nonneg, if_true, Int.toNat_ofNat, hrow]
        exact keyScan_isSome v now inX row.keys row.keys.length 0 (by omega)

/-- C20: no input makes the engine panic on an out-of-range access.
`convertKeymap` indexes `runeSlice[0]` only under the guard `len(k.Char) > 0`,
under which the rune slice is non-empty, so `convertKeymap` and `New` always
return; the row index `GetPressedKey` uses is `-1` or within
`0 ≤ rowIndex < len(rows)`, its key loop indexes within `0 ≤ i < len(keys)`,
and so it always returns; `validateKeymap` always returns `nil` or an error
value, and `New` passes that error on. -/
theorem no_out_of_range_panic (nonFinite : ℤ → ℚ → ℤ) (km : KeyMap) (fbWidth fbHeight : ℤ)
    (v : VirtKeyboard) (now inX inY : ℤ) :
    (∀ k : KeyDesc, len k.Char > 0 → ∃ r, (runes k.Char)[0]? = some r) ∧
    (∀ currY currX (k : KeyDesc), ∃ key, convertKey v currY currX k = some key) ∧
    (∃ kb, convertKeymap v km = some kb) ∧
    (∃ kb err, New nonFinite km fbWidth fbHeight = some (kb, err) ∧ err = validateKeymap km) ∧
    (rowScan inY v.rows 0 v.StartCoords.Y = -1 ∨
      (0 ≤ rowScan inY v.rows 0 v.StartCoords.Y ∧
        rowScan inY v.rows 0 v.StartCoords.Y < (v.rows.length : ℤ))) ∧
    (∀ keys : List Key, ∃ res, keyScan v now inX keys keys.length 0 = some res) ∧
    (∃ res, GetPressedKey v now inX inY = some res) := by
  refine ⟨fun k hk => ⟨_, runes_head_of_len_pos k.Char hk⟩,
    fun currY currX k => ⟨_, convertKey_eq v currY currX k⟩,
    ⟨_, convertKeymap_eq v km⟩, ?_, rowScan_range inY v.rows v.StartCoords.Y,
    fun keys => keyScan_isSome v now inX keys keys.length 0 (by omega),
    GetPressedKey_isSome v now inX inY⟩
  cases hv : validateKeymap km with
  | some e => exact ⟨_, _, New_of_invalid nonFinite km fbWidth fbHeight e hv, rfl⟩
  | none => exact ⟨_, _, New_of_valid nonFinite km fbWidth fbHeight hv, rfl⟩
/-! ## Rounding of margins, truncation of sizes -/

theorem int_nonneg_or_le_neg_one (m : ℤ) : (0 : ℚ) ≤ (m : ℚ) ∨ (m : ℚ) ≤ -1 := by
  rcases le_or_lt 0 m with h0 | h0
  · left
    exact_mod_cast h0
  · right
    have h1 : m ≤ -1 := by omega
    exact_mod_cast h1

theorem isRoundHalfAway_lt_absurd (x : ℚ) (m n : ℤ) (hm : IsRoundHalfAway x m)
    (hn : IsRoundHalfAway x n) (h : m < n) : False := by
  obtain ⟨hm1, hm2⟩ := hm
  obtain ⟨hn1, hn2⟩ := hn
  rw [abs_le] at hm1 hn1
  have h1 : (m : ℚ) + 1 ≤ (n : ℚ) := by exact_mod_cast h
  have hmx : (m : ℚ) - x = -(1 / 2) := by linarith
  have hnx : (n : ℚ) - x = 1 / 2 := by linarith
  have ha := hm2 (by rw [hmx, abs_neg]; norm_num)
  have hb := hn2 (by rw [hnx]; norm_num)
  rcases int_nonneg_or_le_neg_one m with hc | hc
  · rw [abs_of_nonneg hc, abs_of_nonneg (by linarith : (0 : ℚ) ≤ x)] at ha
    linarith
  · rw [abs_of_nonpos (by linarith : (n : ℚ) ≤ 0), abs_of_nonpos (by linarith : x ≤ 0)] at hb
    linarith

theorem isRoundHalfAway_unique (x : ℚ) (m n : ℤ) (hm : IsRoundHalfAway x m)
    (hn : IsRoundHalfAway x n) : m = n := by
  by_contra hne
  rcases lt_or_gt_of_ne hne with h | h
  · exact isRoundHalfAway_lt_absurd x m n hm hn h
  · exact isRoundHalfAway_lt_absurd x n m hn hm h

theorem isRoundHalfAway_of_nonneg (x : ℚ) (m : ℤ) (hx : 0 ≤ x) (h1 : (m : ℚ) ≤ x + 1 / 2)
    (h2 : x + 1 / 2 < (m : ℚ) + 1) : IsRoundHalfAway x m := by
  have hm0 : (0 : ℚ) ≤ (m : ℚ) := by
    rcases int_nonneg_or_le_neg_one m with hc | hc
    · exact hc
    · linarith
  refine ⟨abs_le.mpr ⟨by linarith, by linarith⟩, ?_⟩
  intro he
  have hmx : (m : ℚ) - x = 1 / 2 := by
    rcases abs_cases ((m : ℚ) - x) with ⟨e, _⟩ | ⟨e, _⟩ <;> linarith
  rw [abs_of_nonneg hx, abs_of_nonneg hm0]
  linarith

theorem isRoundHalfAway_of_neg (x : ℚ) (n : ℤ) (hx : x < 0) (h1 : (n : ℚ) ≤ -x + 1 / 2)
    (h2 : -x + 1 / 2 < (n : ℚ) + 1) : IsRoundHalfAway x (-n) := by
  have hn0 : (0 : ℚ) ≤ (n : ℚ) := by
    rcases int_nonneg_or_le_neg_one n with hc | hc
    · exact hc
    · linarith
  unfold IsRoundHalfAway
  push_cast
  refine ⟨abs_le.mpr ⟨by linarith, by linarith⟩, ?_⟩
  intro he
  have hnx : -(n : ℚ) - x = -(1 / 2) := by
    rcases abs_cases (-(n : ℚ) - x) with ⟨e, _⟩ | ⟨e, _⟩ <;> linarith
  rw [abs_of_neg hx, abs_neg, abs_of_nonneg hn0]
  linarith

theorem goInt_mathRound_isRound (x : ℚ) : IsRoundHalfAway x (goInt (mathRound x)) := by
  unfold mathRound
  by_cases hx : 0 ≤ x
  · rw [if_pos hx, goInt_intCast]
    exact isRoundHalfAway_of_nonneg x _ hx (Int.floor_le _) (Int.lt_floor_add_one _)
  · rw [if_neg hx]
    have hcast : (-((⌊-x + 1 / 2⌋ : ℤ) : ℚ)) = (((-⌊-x + 1 / 2⌋ : ℤ)) : ℚ) := by push_cast; ring
    rw [hcast, goInt_intCast]
    exact isRoundHalfAway_of_neg x _ (not_le.mp hx) (Int.floor_le _) (Int.lt_floor_add_one _)

theorem goInt_isTruncation (x : ℚ) : IsTruncation x (goInt x) := by
  unfold goInt
  refine ⟨?_, ?_⟩
  · intro hx
    rw [if_pos hx]
    exact ⟨Int.floor_le x, Int.lt_floor_add_one x⟩
  · intro hx
    rw [if_neg (not_le.mpr hx)]
    exact ⟨by linarith [Int.ceil_lt_add_one x], Int.le_ceil x⟩

/-- C15: for an accepted description `New` converts each margin fraction to
pixels by rounding `fraction * canvasDimension` to the nearest integer with
halves away from zero (top and bottom against `fbHeight`, left and right
against `fbWidth`), sets `StartCoords` to `(left-px, top-px)`,
`widthPX = fbWidth - left-px - right-px` and
`heightPX = fbHeight - top-px - bottom-px`. -/
theorem New_margins (nonFinite : ℤ → ℚ → ℤ) (km : KeyMap) (fbWidth fbHeight : ℤ)
    (hv : validateKeymap km = none) :
    ∃ kb, New nonFinite km fbWidth fbHeight = some (kb, none) ∧
      ∃ top bottom left right : ℤ,
        IsRoundHalfAway ((fbHeight : ℚ) * km.KBmargins.Top) top ∧
        IsRoundHalfAway ((fbHeight : ℚ) * km.KBmargins.Bottom) bottom ∧
        IsRoundHalfAway ((fbWidth : ℚ) * km.KBmargins.Left) left ∧
        IsRoundHalfAway ((fbWidth : ℚ) * km.KBmargins.Right) right ∧
        kb.StartCoords = ⟨left, top⟩ ∧
        kb.widthPX = fbWidth - left - right ∧
        kb.heightPX = fbHeight - top - bottom :=
  ⟨_, New_of_valid nonFinite km fbWidth fbHeight hv, _, _, _, _,
    goInt_mathRound_isRound _, goInt_mathRound_isRound _, goInt_mathRound_isRound _,
    goInt_mathRound_isRound _, rfl, rfl, rfl⟩

/-- C15, at the sample description on a 100 by 200 canvas: the margins of
0.1 of the height are 20 pixels each, the origin is `(0, 20)` and the drawable
area is 100 by 160. -/
theorem New_margins_witness :
    ∃ kb, New (fun _ _ => 0) kmSample 100 200 = some (kb, none) ∧
      ∃ top bottom left right : ℤ,
        IsRoundHalfAway (((200 : ℤ) : ℚ) * kmSample.KBmargins.Top) top ∧
        IsRoundHalfAway (((200 : ℤ) : ℚ) * kmSample.KBmargins.Bottom) bottom ∧
        IsRoundHalfAway (((100 : ℤ) : ℚ) * kmSample.KBmargins.Left) left ∧
        IsRoundHalfAway (((100 : ℤ) : ℚ) * kmSample.KBmargins.Right) right ∧
        kb.StartCoords = ⟨left, top⟩ ∧
        kb.widthPX = 100 - left - right ∧
        kb.heightPX = 200 - top - bottom :=
  New_margins (fun _ _ => 0) kmSample 100 200 validateKeymap_kmSample
theorem compiledKeys_truncated (v : VirtKeyboard) (currY : ℤ) (ks : List KeyDesc) (currX : ℤ) :
    List.Forall₂ (fun k kd => IsTruncation ((v.kmUnitWidth : ℚ) * kd.KeyWidth) k.width)
      (compiledKeys v currY ks currX) ks := by
  induction ks generalizing currX with
  | nil => exact List.Forall₂.nil
  | cons kd ks ih => exact List.Forall₂.cons (goInt_isTruncation _) (ih _)

theorem compiledRows_truncated (v : VirtKeyboard) (rs : List RowDesc) (currY : ℤ) :
    List.Forall₂ (fun r d => IsTruncation ((v.rhUnitWidth : ℚ) * d.RowHeight) r.rowHeight ∧
        List.Forall₂ (fun k kd => IsTruncation ((v.kmUnitWidth : ℚ) * kd.KeyWidth) k.width)
          r.keys d.Keys)
      (compiledRows v rs currY) rs := by
  induction rs generalizing currY with
  | nil => exact List.Forall₂.nil
  | cons d rs ih =>
    exact List.Forall₂.cons ⟨goInt_isTruncation _, compiledKeys_truncated _ _ _ _⟩ (ih _)

/-- C14 (amended): for an accepted description every compiled row's pixel
height is `rhUnitWidth * declaredRowHeight` with the fractional part
discarded, and every compiled key's pixel width is
`kmUnitWidth * declaredKeyWidth` with the fractional part discarded
(truncation toward zero, not rounding to nearest). -/
theorem New_sizes_truncated (nonFinite : ℤ → ℚ → ℤ) (km : KeyMap) (fbWidth fbHeight : ℤ)
    (hv : validateKeymap km = none) :
    ∃ kb, New nonFinite km fbWidth fbHeight = some (kb, none) ∧
      List.Forall₂ (fun r d => IsTruncation ((kb.rhUnitWidth : ℚ) * d.RowHeight) r.rowHeight ∧
          List.Forall₂ (fun k kd => IsTruncation ((kb.kmUnitWidth : ℚ) * kd.KeyWidth) k.width)
            r.keys d.Keys)
        kb.rows km.Rows :=
  ⟨_, New_of_valid nonFinite km fbWidth fbHeight hv,
    compiledRows_truncated (baseKeyboard nonFinite km fbWidth fbHeight) km.Rows _⟩

/-- C14 (amended), at the sample description on a 100 by 200 canvas. -/
theorem New_sizes_truncated_witness :
    ∃ kb, New (fun _ _ => 0) kmSample 100 200 = some (kb, none) ∧
      List.Forall₂ (fun r d => IsTruncation ((kb.rhUnitWidth : ℚ) * d.RowHeight) r.rowHeight ∧
          List.Forall₂ (fun k kd => IsTruncation ((kb.kmUnitWidth : ℚ) * kd.KeyWidth) k.width)
            r.keys d.Keys)
        kb.rows kmSample.Rows :=
  New_sizes_truncated (fun _ _ => 0) kmSample 100 200 validateKeymap_kmSample

theorem validateKeymap_kmHalfUnits : validateKeymap kmHalfUnits = none := by
  rw [validateKeymap_eq_none_iff]
  norm_num [kmHalfUnits, rowWidth, totalHeight]

/-- C14, counterexample: with a row height and a key width of half a unit
on a 3 by 3 canvas both scale factors are 3, the products are `1.5`, and the
compiled row height and key width are 1, while `1.5` rounded to nearest with
halves away from zero is 2. -/
theorem New_sizes_truncated_counterexample :
    validateKeymap kmHalfUnits = none ∧
      ∃ kb, New (fun _ _ => 0) kmHalfUnits 3 3 = some (kb, none) ∧
        kb.rhUnitWidth = 3 ∧ kb.kmUnitWidth = 3 ∧
        kb.rows = [⟨1, [⟨⟨0, 0⟩, 1, true, 0, 97⟩]⟩] ∧
        IsRoundHalfAway ((3 : ℚ) * (1 / 2)) 2 ∧ ¬ IsRoundHalfAway ((3 : ℚ) * (1 / 2)) 1 := by
  have h1 : keyCodeOf ⟨false, 0, 1 / 2, "a"⟩ = 97 :=
    keyCodeOf_first false (1 / 2) (Char.ofNat 97) []
  have hr : IsRoundHalfAway ((3 : ℚ) * (1 / 2)) 2 :=
    isRoundHalfAway_of_nonneg _ 2 (by norm_num) (by norm_num) (by norm_num)
  refine ⟨validateKeymap_kmHalfUnits, _, New_of_valid _ _ _ _ validateKeymap_kmHalfUnits,
    ?_, ?_, ?_, hr, ?_⟩
  · norm_num [builtKeyboard, baseKeyboard, marginPx, mathRound, goInt, intOfQuot, minInt, maxInt, kmHalfUnits]
  · norm_num [builtKeyboard, baseKeyboard, marginPx, mathRound, goInt, intOfQuot, minInt, maxInt, kmHalfUnits]
  · norm_num [builtKeyboard, baseKeyboard, marginPx, mathRound, goInt, intOfQuot, minInt, maxInt, kmHalfUnits,
      compiledRows, compiledKeys, compiledKey, h1]
  · intro h
    have := isRoundHalfAway_unique _ _ _ h hr
    omega

/-! ## The scale factors -/

theorem intOfQuot_floor_of_nonneg (nonFinite : ℤ → ℚ → ℤ) (a : ℤ) (b : ℚ) (hb : b ≠ 0)
    (hq : 0 ≤ (a : ℚ) / b) (hfit : ⌊(a : ℚ) / b⌋ ≤ maxInt) :
    intOfQuot nonFinite a b = ⌊(a : ℚ) / b⌋ := by
  have hg : goInt ((a : ℚ) / b) = ⌊(a : ℚ) / b⌋ := by simp only [goInt, if_pos hq]
  have h0 : 0 ≤ ⌊(a : ℚ) / b⌋ := Int.floor_nonneg.mpr hq
  rw [intOfQuot_of_fits nonFinite a b hb (by rw [hg]; exact le_trans (by decide) h0)
    (by rw [hg]; exact hfit), hg]

theorem intOfQuot_eval (nonFinite : ℤ → ℚ → ℤ) (a : ℤ) (b : ℚ) (z : ℤ) (hb : b ≠ 0)
    (hz : goInt ((a : ℚ) / b) = z) (h1 : minInt ≤ z) (h2 : z ≤ maxInt) :
    intOfQuot nonFinite a b = z := by
  rw [intOfQuot_of_fits nonFinite a b hb (by rw [hz]; exact h1) (by rw [hz]; exact h2), hz]

/-- C16, the failing input: for the accepted description with
`top = bottom = 0.6` and `TotalRowHeight = 3` on a 100 by 100 canvas the
drawable height is `-20`, and `New` sets `rhUnitWidth` to `-6`, the quotient
`-20 / 3` truncated toward zero, while its floor is `-7`. -/
theorem New_unit_width_failing_input :
    validateKeymap kmNegativeHeight = none ∧
      ∃ kb, New (fun _ _ => 0) kmNegativeHeight 100 100 = some (kb, none) ∧
        kb.heightPX = -20 ∧ kmNegativeHeight.TotalRowHeight = 3 ∧
        kb.rhUnitWidth = -6 ∧
        ⌊(kb.heightPX : ℚ) / kmNegativeHeight.TotalRowHeight⌋ = -7 := by
  have hH : (builtKeyboard (fun _ _ => 0) kmNegativeHeight 100 100).heightPX = -20 := by
    norm_num [builtKeyboard, baseKeyboard, marginPx, mathRound, goInt, kmNegativeHeight]
  have hU : (builtKeyboard (fun _ _ => 0) kmNegativeHeight 100 100).rhUnitWidth = -6 := by
    have hc : ⌈(-(20 / 3) : ℚ)⌉ = -6 := by
      rw [Int.ceil_eq_iff]
      norm_num
    norm_num [builtKeyboard, baseKeyboard, marginPx, mathRound, goInt, intOfQuot, minInt, maxInt,
      kmNegativeHeight, hc]
  refine ⟨validateKeymap_kmNegativeHeight, _,
    New_of_valid _ _ _ _ validateKeymap_kmNegativeHeight, hH, rfl, hU, ?_⟩
  rw [hH, Int.floor_eq_iff]
  norm_num [kmNegativeHeight]

/-- Where the quotient is non-negative and its floor fits an `int`, the scale
factors are that floor: for an accepted description with non-zero totals,
`kmUnitWidth` is `floor(widthPX / TotalKeyWidth)` and `rhUnitWidth` is
`floor(heightPX / TotalRowHeight)`. -/
theorem New_unit_width_floor_of_nonneg (nonFinite : ℤ → ℚ → ℤ) (km : KeyMap)
    (fbWidth fbHeight : ℤ) (hv : validateKeymap km = none) :
    ∃ kb, New nonFinite km fbWidth fbHeight = some (kb, none) ∧
      (km.TotalKeyWidth ≠ 0 → 0 ≤ (kb.widthPX : ℚ) / km.TotalKeyWidth →
        ⌊(kb.widthPX : ℚ) / km.TotalKeyWidth⌋ ≤ maxInt →
        kb.kmUnitWidth = ⌊(kb.widthPX : ℚ) / km.TotalKeyWidth⌋) ∧
      (km.TotalRowHeight ≠ 0 → 0 ≤ (kb.heightPX : ℚ) / km.TotalRowHeight →
        ⌊(kb.heightPX : ℚ) / km.TotalRowHeight⌋ ≤ maxInt →
        kb.rhUnitWidth = ⌊(kb.heightPX : ℚ) / km.TotalRowHeight⌋) :=
  ⟨_, New_of_valid nonFinite km fbWidth fbHeight hv,
    fun hb hq hfit => intOfQuot_floor_of_nonneg nonFinite _ _ hb hq hfit,
    fun hb hq hfit => intOfQuot_floor_of_nonneg nonFinite _ _ hb hq hfit⟩

/-! ## Row widths and the drawable width -/

theorem sum_goInt_le_list (u : ℚ) (xs : List ℚ) (h : ∀ x ∈ xs, 0 ≤ u * x) :
    (((xs.map (fun x => goInt (u * x))).sum : ℤ) : ℚ) ≤ u * xs.sum := by
  induction xs with
  | nil => simp
  | cons x xs ih =>
    have h1 := (goInt_of_nonneg _ (h x (List.mem_cons_self _ _))).2
    have h2 := ih (fun x' hx' => h x' (List.mem_cons_of_mem _ hx'))
    simp only [List.map_cons, List.sum_cons, Int.cast_add, mul_add]
    linarith

theorem goInt_nonpos (x : ℚ) (h : x ≤ 0) : goInt x ≤ 0 := by
  unfold goInt
  split
  · rename_i h0
    have hx : x = 0 := le_antisymm h h0
    rw [hx]
    simp
  · exact Int.ceil_le.mpr (by exact_mod_cast h)

theorem goInt_pos (x : ℚ) (h : 0 < goInt x) : 0 < x := by
  by_contra hcon
  have := goInt_nonpos x (not_lt.mp hcon)
  omega

theorem compiledKeys_widths (v : VirtKeyboard) (currY : ℤ) (ks : List KeyDesc) (currX : ℤ) :
    (compiledKeys v currY ks currX).map Key.width =
      (ks.map KeyDesc.KeyWidth).map (fun x => goInt ((v.kmUnitWidth : ℚ) * x)) := by
  induction ks generalizing currX with
  | nil => rfl
  | cons kd ks ih => simp only [compiledKeys, List.map_cons, ih, compiledKey]

theorem compiledKeys_edges (v : VirtKeyboard) (currY : ℤ) (ks : List KeyDesc) (currX : ℤ)
    (hnn : ∀ kd ∈ ks, 0 ≤ goInt ((v.kmUnitWidth : ℚ) * kd.KeyWidth)) :
    ∀ k ∈ compiledKeys v currY ks currX, currX ≤ k.coord.X ∧ 0 ≤ k.width ∧
      k.coord.X + k.width ≤ currX + ((compiledKeys v currY ks currX).map Key.width).sum := by
  induction ks generalizing currX with
  | nil => simp [compiledKeys]
  | cons kd ks ih =>
    have h0 : 0 ≤ goInt ((v.kmUnitWidth : ℚ) * kd.KeyWidth) := hnn kd (List.mem_cons_self _ _)
    have hrest : ∀ kd' ∈ ks, 0 ≤ goInt ((v.kmUnitWidth : ℚ) * kd'.KeyWidth) :=
      fun kd' hkd' => hnn kd' (List.mem_cons_of_mem _ hkd')
    have hsum : 0 ≤ ((compiledKeys v currY ks
        (currX + (compiledKey v currY currX kd).width)).map Key.width).sum := by
      apply List.sum_nonneg
      intro w hw
      obtain ⟨k, hk, rfl⟩ := List.mem_map.mp hw
      exact (ih _ hrest k hk).2.1
    intro k hk
    simp only [compiledKeys, List.mem_cons] at hk
    simp only [compiledKeys, List.map_cons, List.sum_cons]
    rcases hk with rfl | hk
    · refine ⟨le_refl _, h0, ?_⟩
      show currX + goInt _ ≤ currX + (goInt _ + _)
      omega
    · obtain ⟨h1, h2, h3⟩ := ih _ hrest k hk
      have hw : (compiledKey v currY currX kd).width =
          goInt ((v.kmUnitWidth : ℚ) * kd.KeyWidth) := rfl
      rw [hw] at h1 h3 ⊢
      exact ⟨by omega, h2, by omega⟩

theorem compiledRows_mem (b : VirtKeyboard) (rs : List RowDesc) (y0 : ℤ) (r : Row)
    (h : r ∈ compiledRows b rs y0) :
    ∃ d ∈ rs, ∃ y, r.keys = compiledKeys b y d.Keys b.StartCoords.X ∧
      r.rowHeight = goInt ((b.rhUnitWidth : ℚ) * d.RowHeight) := by
  induction rs generalizing y0 with
  | nil => simp [compiledRows] at h
  | cons d rs ih =>
    simp only [compiledRows, List.mem_cons] at h
    rcases h with rfl | h
    · exact ⟨d, List.mem_cons_self _ _, y0, rfl, rfl⟩
    · obtain ⟨d', hd', y, h1, h2⟩ := ih _ h
      exact ⟨d', List.mem_cons_of_mem _ hd', y, h1, h2⟩

theorem builtKeyboard_widths (nonFinite : ℤ → ℚ → ℤ) (km : KeyMap) (fbWidth fbHeight : ℤ)
    (hv : validateKeymap km = none)
    (hnn : ∀ d ∈ km.Rows, ∀ kd ∈ d.Keys, 0 ≤ kd.KeyWidth)
    (hW : 0 ≤ (builtKeyboard nonFinite km fbWidth fbHeight).widthPX)
    (hunit : 0 ≤ (builtKeyboard nonFinite km fbWidth fbHeight).kmUnitWidth ∨
      km.TotalKeyWidth = 0) :
    ∀ r ∈ (builtKeyboard nonFinite km fbWidth fbHeight).rows,
      (r.keys.map Key.width).sum ≤ (builtKeyboard nonFinite km fbWidth fbHeight).widthPX ∧
      ∀ k ∈ r.keys, (builtKeyboard nonFinite km fbWidth fbHeight).StartCoords.X ≤ k.coord.X ∧
        0 ≤ k.width ∧
        k.coord.X + k.width ≤ (builtKeyboard nonFinite km fbWidth fbHeight).StartCoords.X +
          (builtKeyboard nonFinite km fbWidth fbHeight).widthPX := by
  intro r hr
  obtain ⟨-, -, hwid, -⟩ := (validateKeymap_eq_none_iff km).mp hv
  obtain ⟨d, hd, y, hkeys, -⟩ :=
    compiledRows_mem (baseKeyboard nonFinite km fbWidth fbHeight) km.Rows _ r hr
  have hxs : ∀ x ∈ d.Keys.map KeyDesc.KeyWidth, 0 ≤ x := by
    intro x hx
    obtain ⟨kd, hkd, rfl⟩ := List.mem_map.mp hx
    exact hnn d hd kd hkd
  obtain ⟨hu, hle⟩ := intOfQuot_mul_sum_le nonFinite _ km.TotalKeyWidth
    (d.Keys.map KeyDesc.KeyWidth) hW hxs (hwid d hd) hunit
  have hpix : ∀ kd ∈ d.Keys,
      0 ≤ goInt (((baseKeyboard nonFinite km fbWidth fbHeight).kmUnitWidth : ℚ) * kd.KeyWidth) :=
    fun kd hkd => (goInt_of_nonneg _ (hu _ (List.mem_map_of_mem _ hkd))).1
  have hsum : (r.keys.map Key.width).sum ≤
      (builtKeyboard nonFinite km fbWidth fbHeight).widthPX := by
    have h1 := sum_goInt_le_list _ (d.Keys.map KeyDesc.KeyWidth) hu
    have h2 : (((r.keys.map Key.width).sum : ℤ) : ℚ) ≤
        (((builtKeyboard nonFinite km fbWidth fbHeight).widthPX : ℤ) : ℚ) := by
      rw [hkeys, compiledKeys_widths]
      exact le_trans h1 hle
    exact_mod_cast h2
  refine ⟨hsum, ?_⟩
  intro k hk
  rw [hkeys] at hk hsum
  obtain ⟨h1, h2, h3⟩ := compiledKeys_edges _ y d.Keys _ hpix k hk
  exact ⟨h1, h2, le_trans h3 (by
    show (baseKeyboard nonFinite km fbWidth fbHeight).StartCoords.X + _ ≤
      (baseKeyboard nonFinite km fbWidth fbHeight).StartCoords.X + _
    omega)⟩

theorem compiledKeys_edges_nonpos (v : VirtKeyboard) (currY : ℤ) (ks : List KeyDesc)
    (currX : ℤ) (hnp : ∀ kd ∈ ks, goInt ((v.kmUnitWidth : ℚ) * kd.KeyWidth) ≤ 0) :
    ((compiledKeys v currY ks currX).map Key.width).sum ≤ 0 ∧
      ∀ k ∈ compiledKeys v currY ks currX, k.coord.X ≤ currX ∧ k.width ≤ 0 := by
  induction ks generalizing currX with
  | nil => simp [compiledKeys]
  | cons kd ks ih =>
    have h0 : goInt ((v.kmUnitWidth : ℚ) * kd.KeyWidth) ≤ 0 := hnp kd (List.mem_cons_self _ _)
    obtain ⟨hs, hk⟩ := ih (currX + (compiledKey v currY currX kd).width)
      (fun kd' hkd' => hnp kd' (List.mem_cons_of_mem _ hkd'))
    have hw : (compiledKey v currY currX kd).width =
        goInt ((v.kmUnitWidth : ℚ) * kd.KeyWidth) := rfl
    refine ⟨?_, ?_⟩
    · simp only [compiledKeys, List.map_cons, List.sum_cons]
      omega
    · intro k hkm
      simp only [compiledKeys, List.mem_cons] at hkm
      rcases hkm with rfl | hkm
      · exact ⟨le_refl _, h0⟩
      · obtain ⟨h1, h2⟩ := hk k hkm
        exact ⟨by omega, h2⟩

theorem builtKeyboard_widths_nonpos (nonFinite : ℤ → ℚ → ℤ) (km : KeyMap)
    (fbWidth fbHeight : ℤ) (hnn : ∀ d ∈ km.Rows, ∀ kd ∈ d.Keys, 0 ≤ kd.KeyWidth)
    (hu : (builtKeyboard nonFinite km fbWidth fbHeight).kmUnitWidth < 0) :
    ∀ r ∈ (builtKeyboard nonFinite km fbWidth fbHeight).rows,
      (r.keys.map Key.width).sum ≤ 0 ∧
      ∀ k ∈ r.keys, k.coord.X + k.width ≤
        (builtKeyboard nonFinite km fbWidth fbHeight).StartCoords.X := by
  intro r hr
  obtain ⟨d, hd, y, hkeys, -⟩ :=
    compiledRows_mem (baseKeyboard nonFinite km fbWidth fbHeight) km.Rows _ r hr
  have huq : (((baseKeyboard nonFinite km fbWidth fbHeight).kmUnitWidth : ℤ) : ℚ) ≤ 0 := by
    have : (baseKeyboard nonFinite km fbWidth fbHeight).kmUnitWidth ≤ 0 := le_of_lt hu
    exact_mod_cast this
  have hnp : ∀ kd ∈ d.Keys,
      goInt (((baseKeyboard nonFinite km fbWidth fbHeight).kmUnitWidth : ℚ) * kd.KeyWidth) ≤ 0 :=
    fun kd hkd => goInt_nonpos _ (mul_nonpos_of_nonpos_of_nonneg huq (hnn d hd kd hkd))
  obtain ⟨hs, hk⟩ := compiledKeys_edges_nonpos _ y d.Keys _ hnp
  rw [hkeys]
  refine ⟨hs, ?_⟩
  intro k hkm
  obtain ⟨h1, h2⟩ := hk k hkm
  show k.coord.X + k.width ≤ (baseKeyboard nonFinite km fbWidth fbHeight).StartCoords.X
  omega

/-- C19: for an accepted description whose key widths are all non-negative
and whose `TotalKeyWidth` is positive, compiled by `New` for a canvas with
non-negative drawable width, the pixel widths of the keys of every row sum to
at most `widthPX`, so every key's right edge is at most
`StartCoords.X + widthPX`. -/
theorem New_rows_within_width (nonFinite : ℤ → ℚ → ℤ) (km : KeyMap) (fbWidth fbHeight : ℤ)
    (hv : validateKeymap km = none)
    (hnn : ∀ d ∈ km.Rows, ∀ kd ∈ d.Keys, 0 ≤ kd.KeyWidth)
    (_hT : 0 < km.TotalKeyWidth) :
    ∃ kb, New nonFinite km fbWidth fbHeight = some (kb, none) ∧
      (0 ≤ kb.widthPX →
        ∀ r ∈ kb.rows, (r.keys.map Key.width).sum ≤ kb.widthPX ∧
          ∀ k ∈ r.keys, k.coord.X + k.width ≤ kb.StartCoords.X + kb.widthPX) := by
  refine ⟨_, New_of_valid nonFinite km fbWidth fbHeight hv, ?_⟩
  intro hW r hr
  by_cases hu : 0 ≤ (builtKeyboard nonFinite km fbWidth fbHeight).kmUnitWidth
  · obtain ⟨h1, h2⟩ :=
      builtKeyboard_widths nonFinite km fbWidth fbHeight hv hnn hW (Or.inl hu) r hr
    exact ⟨h1, fun k hk => (h2 k hk).2.2⟩
  · obtain ⟨h1, h2⟩ :=
      builtKeyboard_widths_nonpos nonFinite km fbWidth fbHeight hnn (not_le.mp hu) r hr
    exact ⟨by omega, fun k hk => by have := h2 k hk; omega⟩

/-- C19, at the sample description on a 100 by 200 canvas: the key widths
40, 20, 40 of row 0 and 100 of row 1 fill the drawable width of 100. -/
theorem New_rows_within_width_witness :
    ∃ kb, New (fun _ _ => 0) kmSample 100 200 = some (kb, none) ∧
      (0 ≤ kb.widthPX →
        ∀ r ∈ kb.rows, (r.keys.map Key.width).sum ≤ kb.widthPX ∧
          ∀ k ∈ r.keys, k.coord.X + k.width ≤ kb.StartCoords.X + kb.widthPX) :=
  New_rows_within_width (fun _ _ => 0) kmSample 100 200 validateKeymap_kmSample
    (by
      intro d hd kd hkd
      simp only [kmSample, List.mem_cons, List.mem_singleton, List.not_mem_nil, or_false] at hd
      rcases hd with rfl | rfl
      · simp only [List.mem_cons, List.mem_singleton, List.not_mem_nil, or_false] at hkd
        rcases hkd with rfl | rfl | rfl <;> norm_num
      · simp only [List.mem_singleton] at hkd
        subst hkd
        norm_num)
    (by norm_num [kmSample])
/-! ## Hit-testing inverts compilation -/

theorem rowTop_le_succ (y0 : ℤ) (rows : List Row) (hnn : ∀ r ∈ rows, 0 ≤ r.rowHeight) (n : ℕ) :
    rowTop y0 rows n ≤ rowTop y0 rows (n + 1) := by
  cases h : rows[n]? with
  | some row =>
    rw [rowTop_succ y0 rows n row h]
    have := hnn row (List.getElem?_mem h)
    omega
  | none =>
    have hlen : rows.length ≤ n := by
      by_contra hcon
      rw [List.getElem?_eq_getElem (by omega)] at h
      cases h
    simp only [rowTop, List.take_of_length_le hlen, List.take_of_length_le (Nat.le_succ_of_le hlen)]
    exact le_refl _

theorem rowTop_mono (y0 : ℤ) (rows : List Row) (hnn : ∀ r ∈ rows, 0 ≤ r.rowHeight) (a b : ℕ)
    (hab : a ≤ b) : rowTop y0 rows a ≤ rowTop y0 rows b := by
  induction b with
  | zero =>
    have : a = 0 := by omega
    subst this
    exact le_refl _
  | succ b ih =>
    by_cases h : a = b + 1
    · subst h
      exact le_refl _
    · exact le_trans (ih (by omega)) (rowTop_le_succ y0 rows hnn b)

theorem tiles_right_le (x0 : ℤ) (keys : List Key) (ht : Tiles x0 keys)
    (hw : ∀ k ∈ keys, 0 ≤ k.width) (j j' : ℕ) (k' K : Key) (hjj : j' < j)
    (hk' : keys[j']? = some k') (hK : keys[j]? = some K) :
    k'.coord.X + k'.width ≤ K.coord.X := by
  induction j generalizing K with
  | zero => omega
  | succ j ih =>
    by_cases h : j' = j
    · subst h
      exact le_of_eq (ht.2 j' k' K hk' hK)
    · have hj : j < keys.length := by
        by_contra hcon
        rw [List.getElem?_eq_none (by omega)] at hK
        cases hK
      have hkj : keys[j]? = some keys[j] := List.getElem?_eq_getElem hj
      have h1 := ih keys[j] (by omega) hkj
      have h2 := ht.2 j keys[j] K hkj hK
      have h3 := hw keys[j] (List.getElem_mem _)
      omega

/-- C18: for an accepted description whose key widths and row heights are
all non-negative, compiled by `New` for a canvas with non-negative drawable
width and height, every pointer strictly right of the left edge and at most
at the right edge of a compiled key `K`, and strictly below the top and at
most at the bottom of `K`'s row, is resolved by the scan to `K`, and
`GetPressedKey` on the freshly built keyboard returns `K` with a nil error. -/
theorem GetPressedKey_inverts (nonFinite : ℤ → ℚ → ℤ) (km : KeyMap) (fbWidth fbHeight : ℤ)
    (kb : VirtKeyboard) (i j : ℕ) (row : Row) (K : Key) (now inX inY : ℤ)
    (hv : validateKeymap km = none)
    (hkw : ∀ d ∈ km.Rows, ∀ kd ∈ d.Keys, 0 ≤ kd.KeyWidth)
    (hrh : ∀ d ∈ km.Rows, 0 ≤ d.RowHeight)
    (hnew : New nonFinite km fbWidth fbHeight = some (kb, none))
    (hW : 0 ≤ kb.widthPX) (hH : 0 ≤ kb.heightPX)
    (hrow : kb.rows[i]? = some row) (hK : row.keys[j]? = some K)
    (hx1 : K.coord.X < inX) (hx2 : inX ≤ K.coord.X + K.width)
    (hy1 : rowTop kb.StartCoords.Y kb.rows i < inY)
    (hy2 : inY ≤ rowTop kb.StartCoords.Y kb.rows i + row.rowHeight) :
    Resolves kb inX inY K ∧
      GetPressedKey kb now inX inY =
        some ({ kb with prevKey := K, debounceStartTm := now }, K, none) := by
  have hfresh := (New_fresh nonFinite km fbWidth fbHeight kb none hnew).1
  rw [New_of_valid nonFinite km fbWidth fbHeight hv] at hnew
  cases hnew
  have hrowmem : row ∈ (builtKeyboard nonFinite km fbWidth fbHeight).rows :=
    List.getElem?_mem hrow
  have hKmem : K ∈ row.keys := List.getElem?_mem hK
  obtain ⟨d, hd, y, hkeys, hrowh⟩ :=
    compiledRows_mem (baseKeyboard nonFinite km fbWidth fbHeight) km.Rows _ row hrowmem
  have hunitH : 0 ≤ (builtKeyboard nonFinite km fbWidth fbHeight).rhUnitWidth ∨
      km.TotalRowHeight = 0 := by
    left
    have hpos : 0 < goInt (((baseKeyboard nonFinite km fbWidth fbHeight).rhUnitWidth : ℚ) *
        d.RowHeight) := by
      rw [← hrowh]
      omega
    have hprod := goInt_pos _ hpos
    by_contra hneg
    have hle : (((baseKeyboard nonFinite km fbWidth fbHeight).rhUnitWidth : ℤ) : ℚ) ≤ 0 := by
      have : (baseKeyboard nonFinite km fbWidth fbHeight).rhUnitWidth ≤ 0 :=
        le_of_lt (not_le.mp hneg)
      exact_mod_cast this
    have := mul_nonpos_of_nonpos_of_nonneg hle (hrh d hd)
    linarith
  have hunitW : 0 ≤ (builtKeyboard nonFinite km fbWidth fbHeight).kmUnitWidth ∨
      km.TotalKeyWidth = 0 := by
    left
    have hwmem : K.width ∈ (row.keys.map Key.width) := List.mem_map_of_mem _ hKmem
    rw [hkeys, compiledKeys_widths] at hwmem
    obtain ⟨x, hx, hxw⟩ := List.mem_map.mp hwmem
    obtain ⟨kd, hkd, rfl⟩ := List.mem_map.mp hx
    have hpos : 0 < goInt (((baseKeyboard nonFinite km fbWidth fbHeight).kmUnitWidth : ℚ) *
        kd.KeyWidth) := by
      rw [hxw]
      omega
    have hprod := goInt_pos _ hpos
    by_contra hneg
    have hle : (((baseKeyboard nonFinite km fbWidth fbHeight).kmUnitWidth : ℤ) : ℚ) ≤ 0 := by
      have : (baseKeyboard nonFinite km fbWidth fbHeight).kmUnitWidth ≤ 0 :=
        le_of_lt (not_le.mp hneg)
      exact_mod_cast this
    have := mul_nonpos_of_nonpos_of_nonneg hle (hkw d hd kd hkd)
    linarith
  obtain ⟨hh0, hhsum⟩ :=
    builtKeyboard_heights_nonneg nonFinite km fbWidth fbHeight hv hrh hH hunitH
  obtain ⟨-, hwk⟩ :=
    builtKeyboard_widths nonFinite km fbWidth fbHeight hv hkw hW hunitW row hrowmem
  obtain ⟨hKx, -, hKr⟩ := hwk K hKmem
  obtain ⟨hb1, -, hb3⟩ := rowTop_bounds
    (builtKeyboard nonFinite km fbWidth fbHeight).StartCoords.Y _ hh0 i row hrow
  have htile : Tiles (builtKeyboard nonFinite km fbWidth fbHeight).StartCoords.X row.keys :=
    compiledRows_tiles (baseKeyboard nonFinite km fbWidth fbHeight) km.Rows _ row hrowmem
  have hres : Resolves (builtKeyboard nonFinite km fbWidth fbHeight) inX inY K := by
    refine ⟨⟨by omega, by omega, by omega, by omega⟩, i, row, j, hrow, ?_, ?_, hK, hx2, ?_⟩
    · rw [rowTop_succ _ _ i row hrow]
      exact hy2
    · intro i' hi'
      have := rowTop_mono (builtKeyboard nonFinite km fbWidth fbHeight).StartCoords.Y _ hh0
        (i' + 1) i (by omega)
      omega
    · intro j' k' hj' hk'
      have := tiles_right_le _ row.keys htile (fun k hk => (hwk k hk).2.1) j j' k' K hj' hk' hK
      omega
  refine ⟨hres, ?_⟩
  have hne : K ≠ (builtKeyboard nonFinite km fbWidth fbHeight).prevKey := by
    rw [hfresh]
    intro hz
    have hw0 : K.width = 0 := by rw [hz]; rfl
    omega
  rw [GetPressedKey_of_resolves _ now inX inY K hres, debounceStep_of_ne _ now K hne]

/-- C18, on the sample keyboard: the pointer `(80, 50)` inside the third key
of row 0 returns that key. -/
theorem GetPressedKey_inverts_witness :
    Resolves kbSample 80 50 ⟨⟨60, 20⟩, 40, true, 2, 0⟩ ∧
      GetPressedKey kbSample 7 80 50 =
        some ({ kbSample with prevKey := ⟨⟨60, 20⟩, 40, true, 2, 0⟩, debounceStartTm := 7 },
          ⟨⟨60, 20⟩, 40, true, 2, 0⟩, none) :=
  GetPressedKey_inverts (fun _ _ => 0) kmSample 100 200 kbSample 0 2 _ _ 7 80 50
    validateKeymap_kmSample
    (by
      intro d hd kd hkd
      simp only [kmSample, List.mem_cons, List.mem_singleton, List.not_mem_nil, or_false] at hd
      rcases hd with rfl | rfl
      · simp only [List.mem_cons, List.mem_singleton, List.not_mem_nil, or_false] at hkd
        rcases hkd with rfl | rfl | rfl <;> norm_num
      · simp only [List.mem_singleton] at hkd
        subst hkd
        norm_num)
    (by
      intro d hd
      simp only [kmSample, List.mem_cons, List.mem_singleton, List.not_mem_nil, or_false] at hd
      rcases hd with rfl | rfl <;> norm_num)
    New_kmSample (by decide) (by decide) rfl rfl (by decide) (by decide) (by decide) (by decide)

end Osk
